import Mathlib

/-!
Shallow embedding of the marker gap-filling / recovery core of
`pyc3dserver.py` (functions `recover_marker_relative`,
`recover_marker_rigidbody`, `fill_marker_gap_rigidbody`,
`fill_marker_gap_pattern`, `fill_marker_gap_interp`, and the inner rigid
fit solver `RBT`).

Modelling conventions:
* numpy `float32` arithmetic is modelled exactly over `ℚ`;
* `np.sqrt` (inside `np.linalg.norm`) has no rational counterpart, so every
  definition that needs it takes an abstract square-root oracle
  `sqrt_ : ℚ → ℚ`;
* `np.linalg.svd` is modelled by an abstract oracle
  `svd : Mat3 → Mat3 × Mat3` returning the `U` and `Vt` factors (the
  singular values `S` are never used by the source);
* `scipy.interpolate.InterpolatedUnivariateSpline` is modelled by an
  abstract oracle `spline : ℕ → List ℕ → List ℚ → ℕ → ℚ` taking the degree
  `k`, the candidate frames, the candidate values and the frame to evaluate;
* a trajectory is a pair of lists (one 3-D position and one residual per
  frame); numpy fancy indexing is translated index by index;
* numpy integer array indexing with a possibly negative index is modelled
  by `npGet` returning `Option` (`none` corresponds to a raised
  `IndexError`); the two fill strategies that can perform such an access
  therefore return `Option`.
-/

namespace PyC3D

abbrev Vec3 := ℚ × ℚ × ℚ

def vzero : Vec3 := (0, 0, 0)

def vadd (a b : Vec3) : Vec3 := (a.1 + b.1, a.2.1 + b.2.1, a.2.2 + b.2.2)

def vsub (a b : Vec3) : Vec3 := (a.1 - b.1, a.2.1 - b.2.1, a.2.2 - b.2.2)

def vsmul (q : ℚ) (a : Vec3) : Vec3 := (q * a.1, q * a.2.1, q * a.2.2)

def vdot (a b : Vec3) : ℚ := a.1 * b.1 + a.2.1 * b.2.1 + a.2.2 * b.2.2

/-- Cross product, as `np.cross` computes it. -/
def vcross (a b : Vec3) : Vec3 :=
  (a.2.1 * b.2.2 - a.2.2 * b.2.1,
   a.2.2 * b.1 - a.1 * b.2.2,
   a.1 * b.2.1 - a.2.1 * b.1)

/-- A 3x3 matrix as a triple of rows. -/
abbrev Mat3 := Vec3 × Vec3 × Vec3

def mzero : Mat3 := (vzero, vzero, vzero)

def midty : Mat3 := ((1, 0, 0), (0, 1, 0), (0, 0, 1))

/-- Matrix with the given columns (the source builds its rotation matrices
column by column: `np.array([vec_x.T, vec_y.T, vec_z.T]).T`). -/
def matOfCols (x y z : Vec3) : Mat3 :=
  ((x.1, y.1, z.1), (x.2.1, y.2.1, z.2.1), (x.2.2, y.2.2, z.2.2))

def mrow0 (m : Mat3) : Vec3 := m.1
def mrow1 (m : Mat3) : Vec3 := m.2.1
def mrow2 (m : Mat3) : Vec3 := m.2.2

/-- `np.dot(M, v)` for a 3x3 matrix and a 3-vector. -/
def mulVec (m : Mat3) (v : Vec3) : Vec3 :=
  (vdot m.1 v, vdot m.2.1 v, vdot m.2.2 v)

def transposeM (m : Mat3) : Mat3 :=
  matOfCols m.1 m.2.1 m.2.2

/-- `np.dot(M, N)` for 3x3 matrices. -/
def mulM (m n : Mat3) : Mat3 :=
  (mulVec (transposeM n) m.1, mulVec (transposeM n) m.2.1, mulVec (transposeM n) m.2.2)

/-- `np.diag([a, b, c])`. -/
def diagM (a b c : ℚ) : Mat3 :=
  ((a, 0, 0), (0, b, 0), (0, 0, c))

/-- Determinant of a 3x3 matrix (`np.linalg.det`). -/
def det3 (m : Mat3) : ℚ :=
  m.1.1 * (m.2.1.2.1 * m.2.2.2.2 - m.2.1.2.2 * m.2.2.2.1)
  - m.1.2.1 * (m.2.1.1 * m.2.2.2.2 - m.2.1.2.2 * m.2.2.1)
  + m.1.2.2 * (m.2.1.1 * m.2.2.2.1 - m.2.1.2.1 * m.2.2.1)

/-- Outer product `u vᵀ` of two 3-vectors. -/
def outerM (u v : Vec3) : Mat3 :=
  (vsmul u.1 v, vsmul u.2.1 v, vsmul u.2.2 v)

def maddM (m n : Mat3) : Mat3 :=
  (vadd m.1 n.1, vadd m.2.1 n.2.1, vadd m.2.2 n.2.2)

/-- `np.isclose(a, b)` with the default tolerances
`rtol = 1e-05`, `atol = 1e-08`: `|a - b| <= atol + rtol * |b|`. -/
def isclose (a b : ℚ) : Bool :=
  |a - b| ≤ 1 / 100000000 + (1 / 100000) * |b|

/-- Validity of a frame from its residual:
`np.where(np.isclose(resid, -1), False, True)`. -/
def resid_valid (r : ℚ) : Bool := ! isclose r (-1)

/-- `np.linalg.norm` of a 3-vector, through the square-root oracle. -/
def norm3 (sq : ℚ → ℚ) (v : Vec3) : ℚ := sq (vdot v v)

/-- Indices at which a boolean mask is true — `np.where(mask)[0]`. -/
def whereTrue (m : List Bool) : List ℕ :=
  (List.range m.length).filter (fun i => m.getD i false)

/-- `np.searchsorted(a, v)` (default side `left`): for a sorted array this
is the number of elements strictly below `v`. -/
def searchsorted (a : List ℕ) (v : ℕ) : ℕ :=
  a.countP (fun x => decide (x < v))

/-- `np.argmin` of `|a - fr|` over an integer array: index of the first
occurrence of the minimal absolute difference. -/
def argminAbsAux (fr : ℕ) : List ℕ → ℕ → ℕ → ℕ → ℕ
  | [], _, bi, _ => bi
  | x :: xs, i, bi, bv =>
    if Nat.dist x fr < bv then argminAbsAux fr xs (i + 1) i (Nat.dist x fr)
    else argminAbsAux fr xs (i + 1) bi bv

def argminAbs (a : List ℕ) (fr : ℕ) : ℕ :=
  match a with
  | [] => 0
  | x :: xs => argminAbsAux fr xs 1 0 (Nat.dist x fr)

/-- numpy integer-array indexing with a (possibly negative) index:
negative indices at least `-len` wrap around, anything else raises
`IndexError` (modelled as `none`). -/
def npGet (l : List ℕ) (i : ℤ) : Option ℕ :=
  if 0 ≤ i then l.get? i.toNat
  else if -(l.length : ℤ) ≤ i then l.get? (i + l.length).toNat
  else none

/-- `np.split(arr, np.where(np.diff(arr) != 1)[0] + 1)`: split an integer
array into maximal runs of consecutive values (helper). -/
def splitRunsGo (prev : ℕ) (cur : List ℕ) : List ℕ → List (List ℕ)
  | [] => [cur.reverse]
  | y :: ys =>
    if y = prev + 1 then splitRunsGo y (y :: cur) ys
    else cur.reverse :: splitRunsGo y [y] ys

def splitRuns : List ℕ → List (List ℕ)
  | [] => [[]]
  | x :: xs => splitRunsGo x [x] xs

/-- One marker's trajectory: a position and a residual per frame
(columns 0..2 and column 3 of `get_marker_data`). -/
structure MkrData where
  pos : List Vec3
  res : List ℚ

/-- Result of one strategy invocation: the returned pair
`(updated, valid frame count)` together with the in-memory target arrays
at return time and whether `update_marker_pos` / `update_marker_residual`
were called (write-back through the store adapter). -/
structure StratResult where
  updated : Bool
  nvalid : ℕ
  pos : List Vec3
  res : List ℚ
  wrote : Bool
deriving DecidableEq, Repr

def validMask (md : MkrData) : List Bool := md.res.map resid_valid

def andMask (a b : List Bool) : List Bool := List.zipWith and a b

def notMask (m : List Bool) : List Bool := m.map not

/-- Conjunction of the cluster markers' validity masks
(`cl_mkr_valid_mask`, starting from `np.ones(n, dtype=bool)`). -/
def clValidMask (n : ℕ) (cl : List MkrData) : List Bool :=
  cl.foldl (fun acc md => andMask acc (validMask md)) (List.replicate n true)

/-- `np.nanmean(np.linalg.norm(cl - tgt, axis=1))`: the mean distance over
all `n` frames (the data contain no NaN in this model, so `nanmean` is the
plain mean; invalid frames contribute their stored coordinates because the
trajectories are fetched with `blocked_nan=False`). -/
def meanDistAll (sq : ℚ → ℚ) (n : ℕ) (tgtPos clPos : List Vec3) : ℚ :=
  (((List.range n).map
    (fun f => norm3 sq (vsub (clPos.getD f vzero) (tgtPos.getD f vzero)))).sum) / n

/-- `(index, mean distance)` pair per cluster marker, in input order (the
Python dict preserves the insertion order of `cl_mkr_names`). -/
def clDistPairs (sq : ℚ → ℚ) (n : ℕ) (tgt : MkrData) (cl : List MkrData) :
    List (ℕ × ℚ) :=
  (List.range cl.length).map
    (fun i => (i, meanDistAll sq n tgt.pos ((cl.getD i ⟨[], []⟩).pos)))

/-- `sorted(dict_cl_mkr_dist.items(), key=lambda kv: kv[1])`: Python's
`sorted` is stable, exactly like `List.insertionSort` with `a.2 ≤ b.2`. -/
def clDistSorted (sq : ℚ → ℚ) (n : ℕ) (tgt : MkrData) (cl : List MkrData) :
    List (ℕ × ℚ) :=
  (clDistPairs sq n tgt cl).insertionSort (fun a b => a.2 ≤ b.2)

/-- Index (into the cluster list) of the `j`-th nearest cluster marker. -/
def refIdx (sq : ℚ → ℚ) (n : ℕ) (tgt : MkrData) (cl : List MkrData) (j : ℕ) : ℕ :=
  ((clDistSorted sq n tgt cl).getD j (0, 0)).1

/-- Positions of the `j`-th selected reference marker. -/
def refPos (sq : ℚ → ℚ) (n : ℕ) (tgt : MkrData) (cl : List MkrData) (j : ℕ) :
    List Vec3 :=
  (cl.getD (refIdx sq n tgt cl j) ⟨[], []⟩).pos

/-- `np.divide(v, norm, where=(norm != 0))`: where the norm vanishes the
source leaves the output slot unwritten (uninitialized buffer); the model
keeps the unnormalized vector there, which no claim depends on. -/
def unitv (sq : ℚ → ℚ) (v : Vec3) : Vec3 :=
  let nv := norm3 sq v
  if nv = 0 then v else vsmul (1 / nv) v

/-- The per-frame rotation matrix of the rigid frame builder: columns
`[vec_x, vec_y, vec_z]` with `vec_x = unit(p1-p0)`,
`vec_z = unit(unit(p1-p0) × unit(p2-p0))`, `vec_y = vec_z × vec_x`. -/
def buildRot (sq : ℚ → ℚ) (p0 p1 p2 : List Vec3) (f : ℕ) : Mat3 :=
  let v0 := vsub (p1.getD f vzero) (p0.getD f vzero)
  let v1 := vsub (p2.getD f vzero) (p0.getD f vzero)
  let u0 := unitv sq v0
  let u1 := unitv sq v1
  let u2 := unitv sq (vcross u0 u1)
  matOfCols u0 (vcross u2 u0) u2

/-- Local-frame offset of the target at frame `f`
(`np.einsum('ij,ijk->ik', tgt - p0, mat_rot)` row, i.e. `Rᵀ·(tgt-p0)`). -/
def relOffset (sq : ℚ → ℚ) (p0 p1 p2 tgtPos : List Vec3) (f : ℕ) : Vec3 :=
  mulVec (transposeM (buildRot sq p0 p1 p2 f))
    (vsub (tgtPos.getD f vzero) (p0.getD f vzero))

/-- The repaired position `recover_marker_relative` computes for one frame
`fr` of `cl_mkr_only_valid_frs` (`allFrs` is `all_mkr_valid_frs`). -/
def recRelFrame (sq : ℚ → ℚ) (p0 p1 p2 tgtPos : List Vec3) (allFrs : List ℕ)
    (fr : ℕ) : Vec3 :=
  let relAt := fun i => relOffset sq p0 p1 p2 tgtPos (allFrs.getD i 0)
  let s := searchsorted allFrs fr
  let off :=
    if s ≥ allFrs.length ∨ s = 0 then
      relAt (argminAbs allFrs fr)
    else
      let fr1 := allFrs.getD s 0
      let fr0 := allFrs.getD (s - 1) 0
      let a : ℚ := (fr : ℚ) - (fr0 : ℚ)
      let b : ℚ := (fr1 : ℚ) - (fr : ℚ)
      vsmul (1 / (a + b)) (vadd (vsmul b (relAt (s - 1))) (vsmul a (relAt s)))
  vadd (p0.getD fr vzero) (mulVec (buildRot sq p0 p1 p2 fr) off)

/-- `recover_marker_relative` (pyc3dserver.py lines 1730-1805). The loop
writes `tgt_mkr_coords_recovered[idx]` for the `idx`-th frame of
`cl_mkr_only_valid_frs` and then assigns the whole block through the
boolean mask `cl_mkr_only_valid_mask`, which writes those values back to
exactly those frames in order; the model performs the identical per-frame
update directly.  The loop reads only the precomputed anchor offsets and
the cluster data, never the mutated target array. -/
def recover_marker_relative (sq : ℚ → ℚ) (tgt : MkrData) (cl : List MkrData) :
    StratResult :=
  let n := tgt.res.length
  let tmask := validMask tgt
  let nv := tmask.count true
  if nv = 0 then ⟨false, nv, tgt.pos, tgt.res, false⟩
  else if nv = n then ⟨false, nv, tgt.pos, tgt.res, false⟩
  else
    let clMask := clValidMask n cl
    let allMask := andMask clMask tmask
    if ¬ allMask.any id then ⟨false, nv, tgt.pos, tgt.res, false⟩
    else
      let clOnlyMask := andMask clMask (notMask tmask)
      if ¬ clOnlyMask.any id then ⟨false, nv, tgt.pos, tgt.res, false⟩
      else
        let allFrs := whereTrue allMask
        let p0 := refPos sq n tgt cl 0
        let p1 := refPos sq n tgt cl 1
        let p2 := refPos sq n tgt cl 2
        let pos2 := tgt.pos.mapIdx (fun f p =>
          if clOnlyMask.getD f false then recRelFrame sq p0 p1 p2 tgt.pos allFrs f
          else p)
        let res2 := tgt.res.mapIdx (fun f r =>
          if clOnlyMask.getD f false then 0 else r)
        ⟨true, (res2.map resid_valid).count true, pos2, res2, true⟩

/-- The repaired position `recover_marker_rigidbody` computes for one
frame `fr` of `cl_mkr_only_valid_frs`; `vec3` is the snapshot
`tgt_mkr_coords - p0` taken before the loop. -/
def recRbFrame (sq : ℚ → ℚ) (p0 p1 p2 tgtPos : List Vec3) (allFrs : List ℕ)
    (fr : ℕ) : Vec3 :=
  let rot := buildRot sq p0 p1 p2
  let v3 := fun f => vsub (tgtPos.getD f vzero) (p0.getD f vzero)
  let s := searchsorted allFrs fr
  let vc :=
    if s = 0 then
      let fr0 := allFrs.getD 0 0
      mulVec (mulM (rot fr) (transposeM (rot fr0))) (v3 fr0)
    else if s ≥ allFrs.length then
      let fr1 := allFrs.getD (allFrs.length - 1) 0
      mulVec (mulM (rot fr) (transposeM (rot fr1))) (v3 fr1)
    else
      let fr0 := allFrs.getD (s - 1) 0
      let fr1 := allFrs.getD s 0
      let vt0 := mulVec (mulM (rot fr) (transposeM (rot fr0))) (v3 fr0)
      let vt1 := mulVec (mulM (rot fr) (transposeM (rot fr1))) (v3 fr1)
      let a : ℚ := (fr : ℚ) - (fr0 : ℚ)
      let b : ℚ := (fr1 : ℚ) - (fr : ℚ)
      vsmul (1 / (a + b)) (vadd (vsmul b vt0) (vsmul a vt1))
  vadd (p0.getD fr vzero) vc

/-- `recover_marker_rigidbody` (pyc3dserver.py lines 1807-1890). The loop
writes `tgt_mkr_coords[fr]` per frame but reads only the snapshot
`vec3 = p3 - p0` (a fresh array computed from the original coordinates)
and the cluster data, so the per-frame updates are independent and the
model applies them directly. -/
def recover_marker_rigidbody (sq : ℚ → ℚ) (tgt : MkrData) (cl : List MkrData) :
    StratResult :=
  let n := tgt.res.length
  let tmask := validMask tgt
  let nv := tmask.count true
  if nv = 0 then ⟨false, nv, tgt.pos, tgt.res, false⟩
  else if nv = n then ⟨false, nv, tgt.pos, tgt.res, false⟩
  else
    let clMask := clValidMask n cl
    let allMask := andMask clMask tmask
    if ¬ allMask.any id then ⟨false, nv, tgt.pos, tgt.res, false⟩
    else
      let clOnlyMask := andMask clMask (notMask tmask)
      if ¬ clOnlyMask.any id then ⟨false, nv, tgt.pos, tgt.res, false⟩
      else
        let allFrs := whereTrue allMask
        let p0 := refPos sq n tgt cl 0
        let p1 := refPos sq n tgt cl 1
        let p2 := refPos sq n tgt cl 2
        let pos2 := tgt.pos.mapIdx (fun f p =>
          if clOnlyMask.getD f false then recRbFrame sq p0 p1 p2 tgt.pos allFrs f
          else p)
        let res2 := tgt.res.mapIdx (fun f r =>
          if clOnlyMask.getD f false then 0 else r)
        ⟨true, (res2.map resid_valid).count true, pos2, res2, true⟩

/-- `np.mean(A, axis=0)` of a point list. -/
def vmean (l : List Vec3) : Vec3 :=
  vsmul (1 / (l.length : ℚ)) (l.foldl vadd vzero)

/-- The linear interpolation expression
`(pos[f1] - pos[f0]) * (f - f0)/(f1 - f0) + pos[f0]` that both fill
strategies evaluate. -/
def linInterp (pos : List Vec3) (f0 f1 f : ℕ) : Vec3 :=
  vadd
    (vsmul (((f : ℚ) - (f0 : ℚ)) / ((f1 : ℚ) - (f0 : ℚ)))
      (vsub (pos.getD f1 vzero) (pos.getD f0 vzero)))
    (pos.getD f0 vzero)

/-- Largest `k ≤ n` with `k * k ≤ n`, by linear search (structural
recursion, so concrete values reduce inside the kernel). -/
def natSqrtLin (n : ℕ) : ℕ :=
  ((List.range (n + 1)).filter (fun k => decide (k * k ≤ n))).foldl Nat.max 0

/-- An exact square root on the rationals, used only to instantiate the
square-root oracle on concrete inputs whose norms are perfect squares. -/
def ratSqrt (q : ℚ) : ℚ :=
  ((natSqrtLin q.num.toNat : ℚ)) / ((natSqrtLin q.den : ℚ))

/-- The cross-covariance matrix `C = (B - mean B)ᵀ (A - mean A)` of the
rigid fit solver. -/
def covMat (A B : List Vec3) : Mat3 :=
  (List.zip B A).foldl
    (fun acc p => maddM acc (outerM (vsub p.1 (vmean B)) (vsub p.2 (vmean A)))) mzero

/-- Output of the rigid fit solver `RBT`. -/
structure RBTResult where
  R : Mat3
  L : Vec3
  errVec : List Vec3
  errNorm : List ℚ
  meanErrNorm : ℚ

/-- The inner rigid fit solver `RBT(A, B)` of `fill_marker_gap_rigidbody`
(pyc3dserver.py lines 1893-1901):
`C = (B - mean B)ᵀ (A - mean A)`; `U, S, Vt = svd(C)` (modelled by the
`svd` oracle returning `U` and `Vt`; `S` is unused by the source);
`R = U · diag(1, 1, det(U·Vt)) · Vt`; `L = mean B - R · mean A`. -/
def RBT (sq : ℚ → ℚ) (svd : Mat3 → Mat3 × Mat3) (A B : List Vec3) : RBTResult :=
  let mA := vmean A
  let mB := vmean B
  let C := covMat A B
  let U := (svd C).1
  let Vt := (svd C).2
  let R := mulM U (mulM (diagM 1 1 (det3 (mulM U Vt))) Vt)
  let L := vsub mB (mulVec R mA)
  let errVec := (List.zip A B).map (fun p => vsub (vadd (mulVec R p.1) L) p.2)
  let errNorm := errVec.map (norm3 sq)
  ⟨R, L, errVec, errNorm, errNorm.sum / (errNorm.length : ℚ)⟩

/-- In-memory loop state of a fill strategy: the target position and
residual arrays plus the `b_updated` flag. -/
structure LoopSt where
  pos : List Vec3
  res : List ℚ
  upd : Bool
deriving DecidableEq, Repr

/-- Bracket selection shared by `fill_marker_gap_rigidbody` and
`fill_marker_gap_pattern`: `searchsorted` followed by the three-way branch
picking `(fr0, fr1)` out of the valid-frame index array.  The edge
branches index with `frs[1]` and `frs[len-2]`, which raises `IndexError`
(`none`) when the array is too short (`frs[len-2]` wraps to `frs[-1]` when
`len = 1`, as numpy negative indexing does). -/
def bracketFrames (frs : List ℕ) (fr : ℕ) : Option (ℕ × ℕ) :=
  let s := searchsorted frs fr
  if s = 0 then
    match npGet frs 0, npGet frs 1 with
    | some f0, some f1 => some (f0, f1)
    | _, _ => none
  else if s ≥ frs.length then
    match npGet frs ((frs.length : ℤ) - 2), npGet frs ((frs.length : ℤ) - 1) with
    | some f0, some f1 => some (f0, f1)
    | _, _ => none
  else
    match npGet frs ((s : ℤ) - 1), npGet frs (s : ℤ) with
    | some f0, some f1 => some (f0, f1)
    | _, _ => none

/-- `[fr0, fr1]` as a list — the slice `mask[fr0:fr1+1]`. -/
def spanFrames (fr0 fr1 : ℕ) : List ℕ := List.range' fr0 (fr1 + 1 - fr0)

/-- Rigid-fit prediction of `fill_marker_gap_rigidbody`: solve the rigid
transform mapping the cluster configuration at frame `fa` onto the
configuration at frame `f` and apply it to the position `p`
(`np.dot(rot, p) + trans`). -/
def rbPred (sq : ℚ → ℚ) (svd : Mat3 → Mat3 × Mat3) (clPos : List (List Vec3))
    (fa f : ℕ) (p : Vec3) : Vec3 :=
  let rbt := RBT sq svd (clPos.map (fun m => m.getD fa vzero))
    (clPos.map (fun m => m.getD f vzero))
  vadd (mulVec rbt.R p) rbt.L

/-- One iteration of the `fill_marker_gap_rigidbody` frame loop
(pyc3dserver.py lines 1934-1961). -/
def rbStep (sq : ℚ → ℚ) (svd : Mat3 → Mat3 × Mat3) (clPos : List (List Vec3))
    (clMask : List Bool) (allFrs : List ℕ) (st : LoopSt) (fr : ℕ) :
    Option LoopSt :=
  match bracketFrames allFrs fr with
  | none => none
  | some (fr0, fr1) =>
    if fr ≤ fr0 ∨ fr1 ≤ fr then some st
    else if ¬ clMask.getD fr0 false ∨ ¬ clMask.getD fr1 false then some st
    else if (spanFrames fr0 fr1).any (fun g => ! clMask.getD g false) then some st
    else
      let t0 := rbPred sq svd clPos fr0 fr (st.pos.getD fr0 vzero)
      let t1 := rbPred sq svd clPos fr1 fr (st.pos.getD fr1 vzero)
      let w : ℚ := ((fr : ℚ) - (fr0 : ℚ)) / ((fr1 : ℚ) - (fr0 : ℚ))
      let v := vadd (vsmul w (vsub t1 t0)) t0
      some ⟨st.pos.set fr v, st.res.set fr 0, true⟩

/-- `fill_marker_gap_rigidbody` (pyc3dserver.py lines 1892-1970).
`none` models an uncaught `IndexError` escaping the frame loop. -/
def fill_marker_gap_rigidbody (sq : ℚ → ℚ) (svd : Mat3 → Mat3 × Mat3)
    (tgt : MkrData) (cl : List MkrData) : Option StratResult :=
  let n := tgt.res.length
  let tmask := validMask tgt
  let nv := tmask.count true
  if nv = 0 then some ⟨false, nv, tgt.pos, tgt.res, false⟩
  else if nv = n then some ⟨false, nv, tgt.pos, tgt.res, false⟩
  else
    let clMask := clValidMask n cl
    let allMask := andMask clMask tmask
    if ¬ allMask.any id then some ⟨false, nv, tgt.pos, tgt.res, false⟩
    else
      let clOnlyMask := andMask clMask (notMask tmask)
      if ¬ clOnlyMask.any id then some ⟨false, nv, tgt.pos, tgt.res, false⟩
      else
        let allFrs := whereTrue allMask
        let clOnlyFrs := whereTrue clOnlyMask
        match clOnlyFrs.foldlM
            (rbStep sq svd (cl.map MkrData.pos) clMask allFrs)
            ⟨tgt.pos, tgt.res, false⟩ with
        | none => none
        | some st =>
          if st.upd then
            some ⟨true, (st.res.map resid_valid).count true, st.pos, st.res, true⟩
          else some ⟨false, nv, tgt.pos, tgt.res, false⟩

/-- One iteration of the `fill_marker_gap_pattern` frame loop
(pyc3dserver.py lines 1997-2016). -/
def patternStep (dnrPos : List Vec3) (dnrMask : List Bool) (bothFrs : List ℕ)
    (st : LoopSt) (fr : ℕ) : Option LoopSt :=
  match bracketFrames bothFrs fr with
  | none => none
  | some (fr0, fr1) =>
    if fr ≤ fr0 ∨ fr1 ≤ fr then some st
    else if ¬ dnrMask.getD fr0 false ∨ ¬ dnrMask.getD fr1 false then some st
    else if (spanFrames fr0 fr1).any (fun g => ! dnrMask.getD g false) then some st
    else
      let vTgt := linInterp st.pos fr0 fr1 fr
      let vDnr := linInterp dnrPos fr0 fr1 fr
      let v := vadd (vsub vTgt vDnr) (dnrPos.getD fr vzero)
      some ⟨st.pos.set fr v, st.res.set fr 0, true⟩

/-- `fill_marker_gap_pattern` (pyc3dserver.py lines 1972-2025).
`none` models an uncaught `IndexError` escaping the frame loop. -/
def fill_marker_gap_pattern (tgt dnr : MkrData) : Option StratResult :=
  let n := tgt.res.length
  let tmask := validMask tgt
  let nv := tmask.count true
  if nv = 0 ∨ nv = n then some ⟨false, nv, tgt.pos, tgt.res, false⟩
  else
    let dmask := validMask dnr
    if ¬ dmask.any id then some ⟨false, nv, tgt.pos, tgt.res, false⟩
    else
      let bothMask := andMask tmask dmask
      if ¬ bothMask.any id then some ⟨false, nv, tgt.pos, tgt.res, false⟩
      else
        let invalidFrs := whereTrue (notMask tmask)
        let bothFrs := whereTrue bothMask
        match invalidFrs.foldlM (patternStep dnr.pos dmask bothFrs)
            ⟨tgt.pos, tgt.res, false⟩ with
        | none => none
        | some st =>
          if st.upd then
            some ⟨true, (st.res.map resid_valid).count true, st.pos, st.res, true⟩
          else some ⟨false, nv, tgt.pos, tgt.res, false⟩

/-- The descending candidate-window loop of `fill_marker_gap_interp`:
`for i in range(gap.min()-1, gap.min()-1-search_span, -1): if i>=0:
mask[i]=True`. -/
def markDown (gmin span : ℕ) (m : List Bool) : List Bool :=
  (List.range span).foldl (fun m (j : ℕ) =>
    let i : ℤ := (gmin : ℤ) - 1 - (j : ℤ)
    if 0 ≤ i then m.set i.toNat true else m) m

/-- The ascending candidate-window loop of `fill_marker_gap_interp`:
`for i in range(gap.max()+1, gap.max()+1+search_span, 1): if i<n:
mask[i]=True`. -/
def markUp (gmax n span : ℕ) (m : List Bool) : List Bool :=
  (List.range span).foldl (fun m (j : ℕ) =>
    let i := gmax + 1 + j
    if i < n then m.set i true else m) m

/-- The per-frame write loop of a repaired gap
(`for idx, fr in enumerate(gap): ...`); the written value depends only on
the already-computed candidate data, not on the evolving state. -/
def writeFold (vals : ℕ → Vec3) (st : LoopSt) (gap : List ℕ) : LoopSt :=
  gap.foldl (fun s fr => ⟨s.pos.set fr (vals fr), s.res.set fr 0, s.upd⟩) st

/-- The candidate mask a gap's iteration builds: both window loops applied
to `np.zeros(n, dtype=bool)`, conjoined with the entry validity mask. -/
def gapCand (soff n : ℕ) (tmask : List Bool) (gap : List ℕ) : List Bool :=
  andMask
    (markUp (gap.foldl Nat.max 0) n ((gap.length + 1) / 2 + soff)
      (markDown (gap.foldl Nat.min (gap.headD 0)) ((gap.length + 1) / 2 + soff)
        (List.replicate n false)))
    tmask

/-- One iteration of the `fill_marker_gap_interp` gap loop
(pyc3dserver.py lines 2041-2065).  `tmask` is the validity mask computed
once at entry; the candidate window is built by the same two guarded index
loops as the source. -/
def gapStep (spline : ℕ → List ℕ → List ℚ → ℕ → ℚ) (k soff minfrs n : ℕ)
    (tmask : List Bool) (st : LoopSt) (gap : List ℕ) : LoopSt :=
  if gap.isEmpty then st
  else
    let gmin := gap.foldl Nat.min (gap.headD 0)
    let gmax := gap.foldl Nat.max 0
    if gmin = 0 ∨ gmax = n - 1 then st
    else
      let cand := gapCand soff n tmask gap
      if cand.count true < minfrs then st
      else
        let candFrs := whereTrue cand
        let cx := candFrs.map (fun f => (st.pos.getD f vzero).1)
        let cy := candFrs.map (fun f => (st.pos.getD f vzero).2.1)
        let cz := candFrs.map (fun f => (st.pos.getD f vzero).2.2)
        let st1 := writeFold (fun fr =>
          (spline k candFrs cx fr, spline k candFrs cy fr, spline k candFrs cz fr)) st gap
        ⟨st1.pos, st1.res, true⟩

/-- `fill_marker_gap_interp` (pyc3dserver.py lines 2027-2074).  The spline
construction and evaluation (`InterpolatedUnivariateSpline(..., k=k,
ext='const')` applied to the gap frames) is the abstract `spline`
oracle. -/
def fill_marker_gap_interp (spline : ℕ → List ℕ → List ℚ → ℕ → ℚ)
    (tgt : MkrData) (k soff minfrs : ℕ) : StratResult :=
  let n := tgt.res.length
  let tmask := validMask tgt
  let nv := tmask.count true
  if nv = 0 ∨ nv = n then ⟨false, nv, tgt.pos, tgt.res, false⟩
  else
    let invalidFrs := whereTrue (notMask tmask)
    let gaps := splitRuns invalidFrs
    let st := gaps.foldl (gapStep spline k soff minfrs n tmask)
      ⟨tgt.pos, tgt.res, false⟩
    if st.upd then
      ⟨true, (st.res.map resid_valid).count true, st.pos, st.res, true⟩
    else ⟨false, nv, tgt.pos, tgt.res, false⟩

/-- A fill step that, when it returns, writes at most its own frame,
preserves the array lengths and can only raise the `b_updated` flag. -/
def StepLocal (step : LoopSt → ℕ → Option LoopSt) : Prop :=
  ∀ st fr st2, step st fr = some st2 →
    st2.pos.length = st.pos.length ∧ st2.res.length = st.res.length ∧
    (st2.upd = st.upd ∨ st2.upd = true) ∧
    ∀ g, g ≠ fr → st2.pos.getD g vzero = st.pos.getD g vzero ∧
      st2.res.getD g 0 = st.res.getD g 0

/-- Invariant of a fill loop, relative to the input trajectory and its
entry validity mask: lengths are preserved, and every frame is either
still untouched or is an invalid frame whose residual was set to `0`. -/
def FillInv (tgt : MkrData) (tmask : List Bool) (st : LoopSt) : Prop :=
  st.pos.length = tgt.pos.length ∧ st.res.length = tgt.res.length ∧
  ∀ g, (st.pos.getD g vzero = tgt.pos.getD g vzero ∧
      st.res.getD g 0 = tgt.res.getD g 0) ∨
    (tmask.getD g false = false ∧ st.res.getD g 0 = 0)

/-- The selection key C7 describes: mean distance over exactly the frames
where both the cluster marker and the target are valid.  This definition
follows the claim's words and exists only to be compared against
`meanDistAll`, which is what the code computes. -/
def claimMeanDistBothValid (sq : ℚ → ℚ) (n : ℕ) (tgt mk : MkrData) : ℚ :=
  let frs := (List.range n).filter
    (fun f => resid_valid (tgt.res.getD f 0) && resid_valid (mk.res.getD f 0))
  ((frs.map
    (fun f => norm3 sq (vsub (mk.pos.getD f vzero) (tgt.pos.getD f vzero)))).sum)
    / (frs.length : ℚ)

/-- The selection C7 describes: stable ascending sort on the both-valid
mean distances, in cluster input order. -/
def claimRefIdx (sq : ℚ → ℚ) (n : ℕ) (tgt : MkrData) (cl : List MkrData)
    (j : ℕ) : ℕ :=
  ((((List.range cl.length).map
      (fun i => (i, claimMeanDistBothValid sq n tgt (cl.getD i ⟨[], []⟩)))).insertionSort
      (fun a b => a.2 ≤ b.2)).getD j (0, 0)).1

/-- Concrete three-frame target fixture (invalid only at frame 1), used to
instantiate theorems on concrete inputs. -/
def wTgt3 : MkrData := ⟨[(1, 1, 0), (9, 9, 9), (3, 1, 0)], [0, -1, 0]⟩

/-- Concrete three-frame donor fixture (valid everywhere), offset from
`wTgt3` by `(1, 0, 0)` at the valid frames. -/
def wDnr3 : MkrData := ⟨[(0, 1, 0), (1, 1, 0), (2, 1, 0)], [0, 0, 0]⟩

/-- Concrete five-frame fixture for the interpolation strategy with
boundary gaps at frames 0, 2 and 4 (only frames 1 and 3 are valid). -/
def wItp : MkrData :=
  ⟨[(0, 0, 0), (1, 0, 0), (2, 0, 0), (3, 0, 0), (4, 0, 0)],
   [-1, 0, -1, 0, -1]⟩

/-- Concrete four-frame fixture for the interpolation strategy with one
interior gap at frame 1, bracketed by valid frames 0, 2 and 3. -/
def wItp2 : MkrData :=
  ⟨[(0, 0, 0), (9, 9, 9), (2, 0, 0), (3, 0, 0)], [0, -1, 0, 0]⟩

/-- Concrete spline oracle instance: sum of the fitted coordinates plus
the evaluation frame. -/
def splW : ℕ → List ℕ → List ℚ → ℕ → ℚ := fun _ _ vals f => vals.sum + f

/-- Concrete three-marker cluster fixture, valid at every frame, with
pairwise distinct distances to `wTgt3`. -/
def wClC5 : List MkrData :=
  [⟨[(0, 0, 0), (1, 0, 0), (2, 0, 0)], [0, 0, 0]⟩,
   ⟨[(0, 1, 0), (1, 1, 0), (2, 1, 0)], [0, 0, 0]⟩,
   ⟨[(0, 0, 1), (1, 0, 1), (2, 0, 1)], [0, 0, 0]⟩]

/-- The per-frame effect C9 describes, relative to the entry validity
mask: every frame either keeps its original position and residual, or is
a repaired frame — invalid at entry with its residual set to `0`. -/
def FrameEffects (tgt : MkrData) (r : StratResult) : Prop :=
  ∀ g, (r.pos.getD g vzero = tgt.pos.getD g vzero ∧
      r.res.getD g 0 = tgt.res.getD g 0) ∨
    ((validMask tgt).getD g false = false ∧ r.res.getD g 0 = 0)

/-! ## List index helper lemmas -/

theorem getD_set_ne {α : Type _} (l : List α) (i j : ℕ) (v d : α) (h : i ≠ j) :
    (l.set i v).getD j d = l.getD j d := by
  rw [List.getD_eq_getD_get?, List.getD_eq_getD_get?, List.get?_set_ne _ _ h]

theorem getD_set_self {α : Type _} (l : List α) (i : ℕ) (v d : α)
    (h : i < l.length) : (l.set i v).getD i d = v := by
  rw [List.getD_eq_getD_get?, List.get?_set_eq_of_lt v h, Option.getD_some]

theorem whereTrue_pairwise (m : List Bool) : (whereTrue m).Pairwise (· < ·) :=
  (List.pairwise_lt_range _).filter _

theorem whereTrue_nodup (m : List Bool) : (whereTrue m).Nodup :=
  (List.nodup_range _).filter _

theorem mem_whereTrue {m : List Bool} {i : ℕ} :
    i ∈ whereTrue m ↔ i < m.length ∧ m.getD i false = true := by
  simp [whereTrue, List.mem_filter, List.mem_range]

theorem searchsorted_le_length (a : List ℕ) (v : ℕ) :
    searchsorted a v ≤ a.length :=
  List.countP_le_length _

/-- For a strictly increasing array, the element at index `i` is below the
probe value iff `i` lies below the insertion point found by
`searchsorted`. -/
theorem getD_lt_iff_lt_searchsorted :
    ∀ (frs : List ℕ), frs.Pairwise (· < ·) → ∀ (f i : ℕ), i < frs.length →
      (frs.getD i 0 < f ↔ i < searchsorted frs f)
  | [], _, _, i, hi => absurd hi (by simp)
  | x :: xs, hs, f, i, hi => by
    have hx : ∀ y ∈ xs, x < y := (List.pairwise_cons.mp hs).1
    have hxs : xs.Pairwise (· < ·) := (List.pairwise_cons.mp hs).2
    have hcount : searchsorted (x :: xs) f =
        searchsorted xs f + if x < f then 1 else 0 := by
      simp [searchsorted, List.countP_cons]
    cases i with
    | zero =>
      simp only [List.getD_cons_zero]
      constructor
      · intro hlt
        rw [hcount, if_pos hlt]
        omega
      · intro hpos
        by_contra hnot
        have hz : searchsorted xs f = 0 := by
          refine List.countP_eq_zero.mpr (fun y hy => ?_)
          have := hx y hy
          simp only [decide_eq_true_eq]
          omega
        rw [hcount, if_neg hnot, hz] at hpos
        omega
    | succ i =>
      simp only [List.getD_cons_succ]
      have hrec := getD_lt_iff_lt_searchsorted xs hxs f i (by simpa using hi)
      rw [hcount]
      by_cases hxf : x < f
      · rw [if_pos hxf]
        rw [hrec]
        omega
      · rw [if_neg hxf]
        have hz : searchsorted xs f = 0 := by
          refine List.countP_eq_zero.mpr (fun y hy => ?_)
          have := hx y hy
          simp only [decide_eq_true_eq]
          omega
        rw [hz]
        constructor
        · intro hlt
          rw [hrec, hz] at hlt
          omega
        · intro hlt
          omega

/-- Location of a claim-level bracket `(f0, f1)` (consecutive members of a
strictly increasing frame array surrounding `f`) in terms of
`searchsorted`. -/
theorem bracket_eq_searchsorted (frs : List ℕ) (hs : frs.Pairwise (· < ·))
    (f f0 f1 : ℕ) (h0 : f0 ∈ frs) (h1 : f1 ∈ frs) (hl : f0 < f) (hr : f < f1)
    (hgap : ∀ g ∈ frs, g ≤ f0 ∨ f1 ≤ g) :
    0 < searchsorted frs f ∧ searchsorted frs f < frs.length ∧
    frs.getD (searchsorted frs f - 1) 0 = f0 ∧
    frs.getD (searchsorted frs f) 0 = f1 := by
  obtain ⟨i0, hi0l, hi0⟩ := List.mem_iff_getElem.mp h0
  obtain ⟨i1, hi1l, hi1⟩ := List.mem_iff_getElem.mp h1
  have e0 : frs.getD i0 0 = f0 := by rw [List.getD_eq_getElem _ _ hi0l, hi0]
  have e1 : frs.getD i1 0 = f1 := by rw [List.getD_eq_getElem _ _ hi1l, hi1]
  have hmono : ∀ i j, i < frs.length → j < frs.length → i < j →
      frs.getD i 0 < frs.getD j 0 := by
    intro i j hi hj hij
    rw [List.getD_eq_getElem _ _ hi, List.getD_eq_getElem _ _ hj]
    exact List.pairwise_iff_get.mp hs ⟨i, hi⟩ ⟨j, hj⟩ hij
  have hs_le := searchsorted_le_length frs f
  have h0lt : i0 < searchsorted frs f := by
    rw [← getD_lt_iff_lt_searchsorted frs hs f i0 hi0l, e0]
    exact hl
  have h1ge : searchsorted frs f ≤ i1 := by
    by_contra hc
    have := (getD_lt_iff_lt_searchsorted frs hs f i1 hi1l).mpr (by omega)
    rw [e1] at this
    omega
  have hspos : 0 < searchsorted frs f := by omega
  have hslen : searchsorted frs f < frs.length := by omega
  refine ⟨hspos, hslen, ?_, ?_⟩
  · have hsm1 : searchsorted frs f - 1 < frs.length := by omega
    have ha : frs.getD (searchsorted frs f - 1) 0 < f :=
      (getD_lt_iff_lt_searchsorted frs hs f _ hsm1).mpr (by omega)
    have hmem : frs.getD (searchsorted frs f - 1) 0 ∈ frs := by
      rw [List.getD_eq_getElem _ _ hsm1]
      exact List.getElem_mem _
    rcases hgap _ hmem with hle | hge
    · refine le_antisymm hle ?_
      rcases Nat.lt_or_ge i0 (searchsorted frs f - 1) with hlt | hge2
      · have := hmono i0 (searchsorted frs f - 1) hi0l hsm1 hlt
        omega
      · have hi0e : i0 = searchsorted frs f - 1 := by omega
        rw [← hi0e, e0]
    · omega
  · have hb : ¬ frs.getD (searchsorted frs f) 0 < f := by
      rw [getD_lt_iff_lt_searchsorted frs hs f _ hslen]
      omega
    have hmem : frs.getD (searchsorted frs f) 0 ∈ frs := by
      rw [List.getD_eq_getElem _ _ hslen]
      exact List.getElem_mem _
    rcases hgap _ hmem with hle | hge
    · omega
    · refine le_antisymm ?_ hge
      rcases Nat.lt_or_ge (searchsorted frs f) i1 with hlt | hge2
      · have := hmono (searchsorted frs f) i1 hslen hi1l hlt
        omega
      · have hi1e : i1 = searchsorted frs f := by omega
        rw [← hi1e, e1]

/-- Under the same bracket hypotheses, `bracketFrames` takes its middle
branch and returns exactly `(f0, f1)`. -/
theorem bracketFrames_eq (frs : List ℕ) (hs : frs.Pairwise (· < ·))
    (f f0 f1 : ℕ) (h0 : f0 ∈ frs) (h1 : f1 ∈ frs) (hl : f0 < f) (hr : f < f1)
    (hgap : ∀ g ∈ frs, g ≤ f0 ∨ f1 ≤ g) :
    bracketFrames frs f = some (f0, f1) := by
  obtain ⟨hpos, hlen, he0, he1⟩ :=
    bracket_eq_searchsorted frs hs f f0 f1 h0 h1 hl hr hgap
  unfold bracketFrames
  rw [if_neg (by omega), if_neg (by omega)]
  have ht0 : ((searchsorted frs f : ℤ) - 1).toNat = searchsorted frs f - 1 := by
    omega
  have hg0 : npGet frs ((searchsorted frs f : ℤ) - 1) = some f0 := by
    unfold npGet
    rw [if_pos (by omega), ht0, List.get?_eq_get (by omega)]
    rw [← List.getD_eq_get frs 0 (by omega : searchsorted frs f - 1 < frs.length), he0]
  have hg1 : npGet frs (searchsorted frs f : ℤ) = some f1 := by
    unfold npGet
    rw [if_pos (by omega)]
    have : ((searchsorted frs f : ℤ)).toNat = searchsorted frs f := by omega
    rw [this, List.get?_eq_get hlen]
    rw [← List.getD_eq_get frs 0 hlen, he1]
  rw [hg0, hg1]

theorem argminAbsAux_no_update (fr : ℕ) :
    ∀ (xs : List ℕ) (i bi bv : ℕ), (∀ x ∈ xs, ¬ Nat.dist x fr < bv) →
      argminAbsAux fr xs i bi bv = bi
  | [], _, _, _, _ => rfl
  | x :: xs, i, bi, bv, h => by
    rw [argminAbsAux, if_neg (h x (List.mem_cons_self x xs))]
    exact argminAbsAux_no_update fr xs (i + 1) bi bv
      (fun y hy => h y (List.mem_cons_of_mem x hy))

theorem argminAbsAux_desc (fr : ℕ) :
    ∀ (xs : List ℕ) (i bi bv : ℕ), xs ≠ [] → xs.Pairwise (· < ·) →
      (∀ y ∈ xs, y < fr) → Nat.dist (xs.headD 0) fr < bv →
      argminAbsAux fr xs i bi bv = i + xs.length - 1
  | [], _, _, _, hne, _, _, _ => absurd rfl hne
  | x :: xs, i, bi, bv, _, hp, hlt, hd => by
    rw [argminAbsAux, if_pos (by simpa using hd)]
    match xs, hp, hlt with
    | [], _, _ => simp [argminAbsAux]
    | y :: t, hp, hlt =>
      have hxy : x < y := (List.pairwise_cons.mp hp).1 y (List.mem_cons_self y t)
      have hyf : y < fr := hlt y (List.mem_cons_of_mem x (List.mem_cons_self y t))
      have hxf : x < fr := hlt x (List.mem_cons_self x _)
      have hdd : Nat.dist ((y :: t).headD 0) fr < Nat.dist x fr := by
        simp only [List.headD_cons]
        simp only [Nat.dist]
        omega
      rw [argminAbsAux_desc fr (y :: t) (i + 1) i (Nat.dist x fr) (by simp)
        (List.pairwise_cons.mp hp).2
        (fun z hz => hlt z (List.mem_cons_of_mem x hz)) hdd]
      simp only [List.length_cons]
      omega

/-- When every anchor lies strictly after the probe frame, `np.argmin` of
the distances picks the first anchor. -/
theorem argminAbs_all_gt (frs : List ℕ) (hp : frs.Pairwise (· < ·)) (f : ℕ)
    (h : ∀ g ∈ frs, f < g) (hne : frs ≠ []) : argminAbs frs f = 0 := by
  match frs, hp, h with
  | [], _, _ => exact absurd rfl hne
  | x :: xs, hp, h =>
    rw [argminAbs]
    refine argminAbsAux_no_update f xs 1 0 (Nat.dist x f) ?_
    intro y hy
    have hxy : x < y := (List.pairwise_cons.mp hp).1 y hy
    have hfx : f < x := h x (List.mem_cons_self x xs)
    simp only [Nat.dist]
    omega

/-- When every anchor lies strictly before the probe frame, `np.argmin` of
the distances picks the last anchor (first occurrence of the minimum of a
strictly decreasing sequence). -/
theorem argminAbs_all_lt (frs : List ℕ) (hp : frs.Pairwise (· < ·)) (f : ℕ)
    (h : ∀ g ∈ frs, g < f) (hne : frs ≠ []) :
    argminAbs frs f = frs.length - 1 := by
  match frs, hp, h with
  | [], _, _ => exact absurd rfl hne
  | [x], _, _ => simp [argminAbs, argminAbsAux]
  | x :: y :: t, hp, h =>
    rw [argminAbs]
    have hxy : x < y := (List.pairwise_cons.mp hp).1 y (List.mem_cons_self y t)
    have hyf : y < f := h y (List.mem_cons_of_mem x (List.mem_cons_self y t))
    have hxf : x < f := h x (List.mem_cons_self x _)
    rw [argminAbsAux_desc f (y :: t) 1 0 (Nat.dist x f) (by simp)
      (List.pairwise_cons.mp hp).2
      (fun z hz => h z (List.mem_cons_of_mem x hz))
      (by simp only [List.headD_cons, Nat.dist]; omega)]
    simp only [List.length_cons]
    omega

theorem npGet_nonneg_eq (l : List ℕ) (i : ℤ) (hi : 0 ≤ i) (v : ℕ)
    (h : npGet l i = some v) :
    i.toNat < l.length ∧ l.getD i.toNat 0 = v := by
  unfold npGet at h
  rw [if_pos hi] at h
  obtain ⟨hlt, hv⟩ := List.get?_eq_some.mp h
  exact ⟨hlt, by rw [List.getD_eq_get _ _ hlt]; exact hv⟩

/-- Converse bracket analysis: if `bracketFrames` produced `(f0, f1)` and
the write guard `f0 < f < f1` is satisfied, then `f0` and `f1` are
consecutive members of the frame array around `f`. -/
theorem bracketFrames_props (frs : List ℕ) (hp : frs.Pairwise (· < ·))
    (f f0 f1 : ℕ) (hb : bracketFrames frs f = some (f0, f1))
    (hl : f0 < f) (hr : f < f1) :
    f0 ∈ frs ∧ f1 ∈ frs ∧ ∀ g ∈ frs, g ≤ f0 ∨ f1 ≤ g := by
  have hmono : ∀ i j, i < frs.length → j < frs.length → i ≤ j →
      frs.getD i 0 ≤ frs.getD j 0 := by
    intro i j hi hj hij
    rcases Nat.lt_or_ge i j with hlt | hge
    · rw [List.getD_eq_getElem _ _ hi, List.getD_eq_getElem _ _ hj]
      exact le_of_lt (List.pairwise_iff_get.mp hp ⟨i, hi⟩ ⟨j, hj⟩ hlt)
    · have : i = j := by omega
      rw [this]
  unfold bracketFrames at hb
  dsimp only at hb
  split_ifs at hb with h1 h2
  · exfalso
    cases e0 : npGet frs 0 with
    | none => rw [e0] at hb; cases hb
    | some v0 =>
      cases e1 : npGet frs 1 with
      | none => rw [e0, e1] at hb; cases hb
      | some v1 =>
        rw [e0, e1] at hb
        have hbl : v0 = f0 := congrArg Prod.fst (Option.some.inj hb)
        obtain ⟨hlt0, hv0⟩ := npGet_nonneg_eq frs 0 (by omega) v0 e0
        rw [Int.toNat_zero] at hlt0 hv0
        have hm : frs.getD 0 0 ∈ frs := by
          rw [List.getD_eq_getElem _ _ hlt0]
          exact List.getElem_mem _
        have hz := List.countP_eq_zero.mp h1 _ hm
        simp only [decide_eq_true_eq] at hz
        rw [hv0, hbl] at hz
        omega
  · exfalso
    cases e0 : npGet frs ((frs.length : ℤ) - 2) with
    | none => rw [e0] at hb; cases hb
    | some v0 =>
      cases e1 : npGet frs ((frs.length : ℤ) - 1) with
      | none => rw [e0, e1] at hb; cases hb
      | some v1 =>
        rw [e0, e1] at hb
        have hbr : v1 = f1 := congrArg (fun p : ℕ × ℕ => p.2) (Option.some.inj hb)
        have hlen1 : 1 ≤ frs.length := by
          by_contra hc
          have hnil : frs = [] := List.length_eq_zero.mp (by omega)
          subst hnil
          unfold npGet at e1
          simp at e1
        obtain ⟨hlt1, hv1⟩ := npGet_nonneg_eq frs ((frs.length : ℤ) - 1)
          (by omega) v1 e1
        have htn : ((frs.length : ℤ) - 1).toNat = frs.length - 1 := by omega
        rw [htn] at hlt1 hv1
        have hall : searchsorted frs f = frs.length := by
          have := searchsorted_le_length frs f
          omega
        have hm : frs.getD (frs.length - 1) 0 ∈ frs := by
          rw [List.getD_eq_getElem _ _ hlt1]
          exact List.getElem_mem _
        have hfull := List.countP_eq_length.mp hall _ hm
        simp only [decide_eq_true_eq] at hfull
        rw [hv1, hbr] at hfull
        omega
  · cases e0 : npGet frs ((searchsorted frs f : ℤ) - 1) with
    | none => rw [e0] at hb; cases hb
    | some v0 =>
      cases e1 : npGet frs (searchsorted frs f : ℤ) with
      | none => rw [e0, e1] at hb; cases hb
      | some v1 =>
        rw [e0, e1] at hb
        have hbl : v0 = f0 := congrArg Prod.fst (Option.some.inj hb)
        have hbr : v1 = f1 := congrArg (fun p : ℕ × ℕ => p.2) (Option.some.inj hb)
        obtain ⟨hlt0, hv0⟩ := npGet_nonneg_eq frs ((searchsorted frs f : ℤ) - 1)
          (by omega) v0 e0
        obtain ⟨hlt1, hv1⟩ := npGet_nonneg_eq frs (searchsorted frs f : ℤ)
          (by omega) v1 e1
        have ht0 : ((searchsorted frs f : ℤ) - 1).toNat = searchsorted frs f - 1 := by
          omega
        have ht1 : ((searchsorted frs f : ℤ)).toNat = searchsorted frs f := by
          omega
        rw [ht0] at hlt0 hv0
        rw [ht1] at hlt1 hv1
        subst hbl hbr
        refine ⟨?_, ?_, ?_⟩
        · rw [← hv0, List.getD_eq_getElem _ _ hlt0]
          exact List.getElem_mem _
        · rw [← hv1, List.getD_eq_getElem _ _ hlt1]
          exact List.getElem_mem _
        · intro g hg
          obtain ⟨ig, higl, hig⟩ := List.mem_iff_getElem.mp hg
          have hge : frs.getD ig 0 = g := by
            rw [List.getD_eq_getElem _ _ higl, hig]
          rcases Nat.lt_or_ge ig (searchsorted frs f) with hlt | hge2
          · left
            rw [← hv0, ← hge]
            exact hmono ig (searchsorted frs f - 1) higl hlt0 (by omega)
          · right
            rw [← hv1, ← hge]
            exact hmono (searchsorted frs f) ig hlt1 higl hge2

/-- Analysis of a `fill_marker_gap_rigidbody` iteration that changed the
state: the frame was properly bracketed by consecutive anchors, the
cluster is valid across the whole span, and the written value is the
frame-distance blend of the two rigid-fit predictions. -/
theorem rbStep_write_analysis (sq : ℚ → ℚ) (svd : Mat3 → Mat3 × Mat3)
    (clPos : List (List Vec3)) (clMask : List Bool) (allFrs : List ℕ)
    (st : LoopSt) (f : ℕ) (st2 : LoopSt) (hp : allFrs.Pairwise (· < ·))
    (h : rbStep sq svd clPos clMask allFrs st f = some st2)
    (hne : st2 ≠ st) :
    ∃ f0 f1, f0 ∈ allFrs ∧ f1 ∈ allFrs ∧ f0 < f ∧ f < f1 ∧
      (∀ g ∈ allFrs, g ≤ f0 ∨ f1 ≤ g) ∧
      (∀ g, f0 ≤ g → g ≤ f1 → clMask.getD g false = true) ∧
      st2 = ⟨st.pos.set f
          (vadd (vsmul (((f : ℚ) - (f0 : ℚ)) / ((f1 : ℚ) - (f0 : ℚ)))
            (vsub (rbPred sq svd clPos f1 f (st.pos.getD f1 vzero))
              (rbPred sq svd clPos f0 f (st.pos.getD f0 vzero))))
            (rbPred sq svd clPos f0 f (st.pos.getD f0 vzero))),
        st.res.set f 0, true⟩ := by
  unfold rbStep at h
  cases hb : bracketFrames allFrs f with
  | none => rw [hb] at h; cases h
  | some p =>
    obtain ⟨fr0, fr1⟩ := p
    rw [hb] at h
    dsimp only at h
    split_ifs at h with hg1 hg2 hg3
    · exact absurd (Option.some.inj h).symm hne
    · exact absurd (Option.some.inj h).symm hne
    · exact absurd (Option.some.inj h).symm hne
    · push_neg at hg1
      obtain ⟨hbl, hbr⟩ := hg1
      have hbl2 : fr0 < f := by omega
      have hbr2 : f < fr1 := by omega
      obtain ⟨hm0, hm1, hcons⟩ :=
        bracketFrames_props allFrs hp f fr0 fr1 hb hbl2 hbr2
      refine ⟨fr0, fr1, hm0, hm1, hbl2, hbr2, hcons, ?_, (Option.some.inj h).symm⟩
      intro g hg0 hg1'
      by_contra hcm
      apply hg3
      rw [List.any_eq_true]
      refine ⟨g, ?_, ?_⟩
      · exact List.mem_range'_1.mpr ⟨hg0, by omega⟩
      · cases hmv : clMask.getD g false
        · rfl
        · exact absurd hmv hcm

/-! ## splitRuns and gap lemmas -/

theorem splitRunsGo_join (prev : ℕ) (cur : List ℕ) :
    ∀ l : List ℕ, (splitRunsGo prev cur l).join = cur.reverse ++ l
  | [] => by simp [splitRunsGo]
  | y :: ys => by
    rw [splitRunsGo]
    split_ifs
    · rw [splitRunsGo_join y (y :: cur) ys]
      simp
    · simp only [List.join_cons, splitRunsGo_join y [y] ys]
      simp

theorem splitRuns_join (l : List ℕ) : (splitRuns l).join = l := by
  cases l with
  | nil => rfl
  | cons x xs =>
    rw [splitRuns, splitRunsGo_join]
    simp

theorem mem_of_mem_splitRuns {l g : List ℕ} {f : ℕ}
    (hg : g ∈ splitRuns l) (hf : f ∈ g) : f ∈ l := by
  rw [← splitRuns_join l]
  exact List.mem_join.mpr ⟨g, hg, hf⟩

theorem splitRuns_pairwise_disjoint {l : List ℕ} (hnd : l.Nodup) :
    (splitRuns l).Pairwise (fun g1 g2 => ∀ f ∈ g1, f ∉ g2) := by
  have hj : ((splitRuns l).join).Nodup := by
    rw [splitRuns_join]
    exact hnd
  exact (List.nodup_join.mp hj).2.imp (fun h f hf hf2 => h hf hf2)

theorem foldl_min_le_mem : ∀ (l : List ℕ) (a : ℕ),
    (∀ x ∈ l, l.foldl Nat.min a ≤ x) ∧ l.foldl Nat.min a ≤ a ∧
      (l.foldl Nat.min a = a ∨ l.foldl Nat.min a ∈ l)
  | [], a => ⟨by simp, le_rfl, Or.inl rfl⟩
  | x :: t, a => by
    obtain ⟨h1, h2, h3⟩ := foldl_min_le_mem t (Nat.min a x)
    simp only [List.foldl_cons]
    refine ⟨?_, ?_, ?_⟩
    · intro y hy
      rcases List.mem_cons.mp hy with rfl | hyt
      · exact h2.trans (Nat.min_le_right a y)
      · exact h1 y hyt
    · exact h2.trans (Nat.min_le_left a x)
    · rcases h3 with he | hm
      · rw [he]
        rcases Nat.le_total a x with hax | hxa
        · exact Or.inl (by show min a x = a; omega)
        · right
          have hmx : Nat.min a x = x := by
            show min a x = x
            omega
          rw [hmx]
          exact List.mem_cons_self x t
      · exact Or.inr (List.mem_cons_of_mem _ hm)

theorem foldl_max_ge_mem : ∀ (l : List ℕ) (a : ℕ),
    (∀ x ∈ l, x ≤ l.foldl Nat.max a) ∧ a ≤ l.foldl Nat.max a ∧
      (l.foldl Nat.max a = a ∨ l.foldl Nat.max a ∈ l)
  | [], a => ⟨by simp, le_rfl, Or.inl rfl⟩
  | x :: t, a => by
    obtain ⟨h1, h2, h3⟩ := foldl_max_ge_mem t (Nat.max a x)
    simp only [List.foldl_cons]
    refine ⟨?_, ?_, ?_⟩
    · intro y hy
      rcases List.mem_cons.mp hy with rfl | hyt
      · exact (Nat.le_max_right a y).trans h2
      · exact h1 y hyt
    · exact (Nat.le_max_left a x).trans h2
    · rcases h3 with he | hm
      · rw [he]
        rcases Nat.le_total a x with hax | hxa
        · right
          have hmx : Nat.max a x = x := by
            show max a x = x
            omega
          rw [hmx]
          exact List.mem_cons_self x t
        · exact Or.inl (by show max a x = a; omega)
      · exact Or.inr (List.mem_cons_of_mem _ hm)

/-- `gap.min()` of the source: attained and minimal. -/
theorem gapMin_spec (gap : List ℕ) (hne : gap ≠ []) :
    gap.foldl Nat.min (gap.headD 0) ∈ gap ∧
      ∀ x ∈ gap, gap.foldl Nat.min (gap.headD 0) ≤ x := by
  obtain ⟨h1, _, h3⟩ := foldl_min_le_mem gap (gap.headD 0)
  refine ⟨?_, h1⟩
  rcases h3 with he | hm
  · rw [he]
    cases gap with
    | nil => exact absurd rfl hne
    | cons x t => exact List.mem_cons_self x t
  · exact hm

/-- `gap.max()` of the source: attained and maximal. -/
theorem gapMax_spec (gap : List ℕ) (hne : gap ≠ []) :
    gap.foldl Nat.max 0 ∈ gap ∧ ∀ x ∈ gap, x ≤ gap.foldl Nat.max 0 := by
  obtain ⟨h1, _, h3⟩ := foldl_max_ge_mem gap 0
  refine ⟨?_, h1⟩
  rcases h3 with he | hm
  · cases gap with
    | nil => exact absurd rfl hne
    | cons x t =>
      have hx := h1 x (List.mem_cons_self x t)
      rw [he] at hx ⊢
      have : x = 0 := by omega
      rw [← this]
      exact List.mem_cons_self x t
  · exact hm

theorem count_true_eq_length_whereTrue :
    ∀ m : List Bool, m.count true = (whereTrue m).length
  | [] => rfl
  | b :: t => by
    have ih := count_true_eq_length_whereTrue t
    rw [whereTrue, List.length_cons, List.range_succ_eq_map, List.filter_cons]
    have hmap : (List.map Nat.succ (List.range t.length)).filter
        (fun i => (b :: t).getD i false) =
        List.map Nat.succ ((List.range t.length).filter
          (fun i => t.getD i false)) := by
      rw [List.filter_map]
      rfl
    rw [hmap]
    cases b <;>
      simp [List.count_cons, ih, whereTrue]

theorem markDown_succ (gmin span : ℕ) (m : List Bool) :
    markDown gmin (span + 1) m =
      (if 0 ≤ (gmin : ℤ) - 1 - (span : ℤ) then
        (markDown gmin span m).set ((gmin : ℤ) - 1 - (span : ℤ)).toNat true
      else markDown gmin span m) := by
  unfold markDown
  rw [List.range_succ, List.foldl_append]
  rfl

theorem markDown_length (gmin span : ℕ) (m : List Bool) :
    (markDown gmin span m).length = m.length := by
  induction span with
  | zero => rfl
  | succ s ih =>
    rw [markDown_succ]
    split_ifs
    · rw [List.length_set, ih]
    · exact ih

theorem markDown_getD (gmin span : ℕ) (m : List Bool) (g : ℕ) (hg : g < m.length) :
    (markDown gmin span m).getD g false =
      (decide (gmin - span ≤ g ∧ g < gmin) || m.getD g false) := by
  induction span with
  | zero =>
    have hnp : ¬ (gmin - 0 ≤ g ∧ g < gmin) := by omega
    rw [decide_eq_false hnp]
    simp [markDown]
  | succ s ih =>
    rw [markDown_succ]
    split_ifs with hge
    · have hidx : ((gmin : ℤ) - 1 - (s : ℤ)).toNat = gmin - 1 - s := by omega
      rw [hidx]
      by_cases hgi : g = gmin - 1 - s
      · rw [hgi, getD_set_self _ _ _ _ (by rw [markDown_length]; omega)]
        have hp : gmin - (s + 1) ≤ gmin - 1 - s ∧ gmin - 1 - s < gmin := by omega
        rw [decide_eq_true hp]
        rfl
      · rw [getD_set_ne _ _ _ _ _ (fun he => hgi he.symm), ih]
        have hiff : (gmin - s ≤ g ∧ g < gmin) ↔ (gmin - (s + 1) ≤ g ∧ g < gmin) := by
          omega
        rw [decide_eq_decide.mpr hiff]
    · rw [ih]
      have hiff : (gmin - s ≤ g ∧ g < gmin) ↔ (gmin - (s + 1) ≤ g ∧ g < gmin) := by
        omega
      rw [decide_eq_decide.mpr hiff]

theorem markUp_succ (gmax n span : ℕ) (m : List Bool) :
    markUp gmax n (span + 1) m =
      (if gmax + 1 + span < n then (markUp gmax n span m).set (gmax + 1 + span) true
      else markUp gmax n span m) := by
  unfold markUp
  rw [List.range_succ, List.foldl_append]
  rfl

theorem markUp_length (gmax n span : ℕ) (m : List Bool) :
    (markUp gmax n span m).length = m.length := by
  induction span with
  | zero => rfl
  | succ s ih =>
    rw [markUp_succ]
    split_ifs
    · rw [List.length_set, ih]
    · exact ih

theorem markUp_getD (gmax n span : ℕ) (m : List Bool) (g : ℕ) (hg : g < m.length) :
    (markUp gmax n span m).getD g false =
      (decide (gmax < g ∧ g ≤ gmax + span ∧ g < n) || m.getD g false) := by
  induction span with
  | zero =>
    have hnp : ¬ (gmax < g ∧ g ≤ gmax + 0 ∧ g < n) := by omega
    rw [decide_eq_false hnp]
    simp [markUp]
  | succ s ih =>
    rw [markUp_succ]
    split_ifs with hge
    · by_cases hgi : g = gmax + 1 + s
      · rw [hgi, getD_set_self _ _ _ _ (by rw [markUp_length]; omega)]
        have hp : gmax < gmax + 1 + s ∧ gmax + 1 + s ≤ gmax + (s + 1) ∧
            gmax + 1 + s < n := by omega
        rw [decide_eq_true hp]
        rfl
      · rw [getD_set_ne _ _ _ _ _ (fun he => hgi he.symm), ih]
        have hiff : (gmax < g ∧ g ≤ gmax + s ∧ g < n) ↔
            (gmax < g ∧ g ≤ gmax + (s + 1) ∧ g < n) := by omega
        rw [decide_eq_decide.mpr hiff]
    · rw [ih]
      have hiff : (gmax < g ∧ g ≤ gmax + s ∧ g < n) ↔
          (gmax < g ∧ g ≤ gmax + (s + 1) ∧ g < n) := by omega
      rw [decide_eq_decide.mpr hiff]

theorem writeFold_untouched (vals : ℕ → Vec3) :
    ∀ (gap : List ℕ) (st : LoopSt) (f : ℕ), f ∉ gap →
      (writeFold vals st gap).pos.getD f vzero = st.pos.getD f vzero ∧
      (writeFold vals st gap).res.getD f 0 = st.res.getD f 0
  | [], _, _, _ => ⟨rfl, rfl⟩
  | x :: t, st, f, hf => by
    have hfx : f ≠ x := fun he => hf (he ▸ List.mem_cons_self x t)
    have hrec := writeFold_untouched vals t
      ⟨st.pos.set x (vals x), st.res.set x 0, st.upd⟩ f
      (fun hm => hf (List.mem_cons_of_mem _ hm))
    refine ⟨hrec.1.trans ?_, hrec.2.trans ?_⟩
    · exact getD_set_ne _ _ _ _ _ (fun he => hfx he.symm)
    · exact getD_set_ne _ _ _ _ _ (fun he => hfx he.symm)

theorem writeFold_length (vals : ℕ → Vec3) :
    ∀ (gap : List ℕ) (st : LoopSt),
      (writeFold vals st gap).pos.length = st.pos.length ∧
      (writeFold vals st gap).res.length = st.res.length ∧
      (writeFold vals st gap).upd = st.upd
  | [], _ => ⟨rfl, rfl, rfl⟩
  | x :: t, st => by
    have hrec := writeFold_length vals t
      ⟨st.pos.set x (vals x), st.res.set x 0, st.upd⟩
    refine ⟨hrec.1.trans ?_, hrec.2.1.trans ?_, hrec.2.2⟩
    · exact List.length_set _ _ _
    · exact List.length_set _ _ _

theorem writeFold_value (vals : ℕ → Vec3) :
    ∀ (gap : List ℕ) (st : LoopSt) (f : ℕ), f ∈ gap → f < st.pos.length →
      f < st.res.length →
      (writeFold vals st gap).pos.getD f vzero = vals f ∧
      (writeFold vals st gap).res.getD f 0 = 0
  | [], _, f, hf, _, _ => absurd hf (List.not_mem_nil f)
  | x :: t, st, f, hf, hfp, hfr => by
    by_cases hft : f ∈ t
    · exact writeFold_value vals t ⟨st.pos.set x (vals x), st.res.set x 0, st.upd⟩
        f hft (by rw [List.length_set]; exact hfp) (by rw [List.length_set]; exact hfr)
    · have hfx : f = x := by
        rcases List.mem_cons.mp hf with he | hm
        · exact he
        · exact absurd hm hft
      subst hfx
      have hrec := writeFold_untouched vals t
        ⟨st.pos.set f (vals f), st.res.set f 0, st.upd⟩ f hft
      refine ⟨hrec.1.trans ?_, hrec.2.trans ?_⟩
      · exact getD_set_self _ _ _ _ hfp
      · exact getD_set_self _ _ _ _ hfr

/-! ## Fill-loop lemmas -/

theorem foldlM_local_untouched (step : LoopSt → ℕ → Option LoopSt)
    (hl : StepLocal step) :
    ∀ (l : List ℕ) (st st2 : LoopSt), l.foldlM step st = some st2 →
      ∀ f, f ∉ l →
      st2.pos.getD f vzero = st.pos.getD f vzero ∧
      st2.res.getD f 0 = st.res.getD f 0 ∧
      st2.pos.length = st.pos.length ∧ st2.res.length = st.res.length
  | [], st, st2, h, f, _ => by
    simp only [List.foldlM_nil] at h
    cases h
    exact ⟨rfl, rfl, rfl, rfl⟩
  | x :: t, st, st2, h, f, hf => by
    rw [List.foldlM_cons] at h
    cases hx : step st x with
    | none => rw [hx] at h; cases h
    | some st1 =>
      rw [hx] at h
      simp only [Option.bind_eq_bind, Option.some_bind] at h
      obtain ⟨a, b, c, d⟩ := foldlM_local_untouched step hl t st1 st2 h f
        (fun hm => hf (List.mem_cons_of_mem _ hm))
      obtain ⟨la, lb, _, hg⟩ := hl st x st1 hx
      have hfx : f ≠ x := fun he => hf (he ▸ List.mem_cons_self x t)
      exact ⟨a.trans (hg f hfx).1, b.trans (hg f hfx).2, c.trans la, d.trans lb⟩

theorem foldlM_upd_true (step : LoopSt → ℕ → Option LoopSt)
    (hl : StepLocal step) :
    ∀ (l : List ℕ) (st st2 : LoopSt), l.foldlM step st = some st2 →
      st.upd = true → st2.upd = true
  | [], st, st2, h, hu => by
    simp only [List.foldlM_nil] at h
    cases h
    exact hu
  | x :: t, st, st2, h, hu => by
    rw [List.foldlM_cons] at h
    cases hx : step st x with
    | none => rw [hx] at h; cases h
    | some st1 =>
      rw [hx] at h
      simp only [Option.bind_eq_bind, Option.some_bind] at h
      refine foldlM_upd_true step hl t st1 st2 h ?_
      rcases (hl st x st1 hx).2.2.1 with h1 | h1
      · rw [h1, hu]
      · exact h1

theorem foldlM_inv (step : LoopSt → ℕ → Option LoopSt) (P : LoopSt → Prop) :
    ∀ (l : List ℕ),
      (∀ st fr st2, fr ∈ l → P st → step st fr = some st2 → P st2) →
      ∀ st st2, l.foldlM step st = some st2 → P st → P st2
  | [], _, st, st2, h, hP => by
    simp only [List.foldlM_nil] at h
    cases h
    exact hP
  | x :: t, hstep, st, st2, h, hP => by
    rw [List.foldlM_cons] at h
    cases hx : step st x with
    | none => rw [hx] at h; cases h
    | some st1 =>
      rw [hx] at h
      simp only [Option.bind_eq_bind, Option.some_bind] at h
      exact foldlM_inv step P t
        (fun st fr st2 hm => hstep st fr st2 (List.mem_cons_of_mem _ hm))
        st1 st2 h (hstep st x st1 (List.mem_cons_self x t) hP hx)

theorem foldlM_total (step : LoopSt → ℕ → Option LoopSt)
    (htot : ∀ st fr, ∃ st2, step st fr = some st2) :
    ∀ (l : List ℕ) (st : LoopSt), ∃ st2, l.foldlM step st = some st2
  | [], st => ⟨st, by simp⟩
  | x :: t, st => by
    obtain ⟨st1, h1⟩ := htot st x
    obtain ⟨st2, h2⟩ := foldlM_total step htot t st1
    exact ⟨st2, by rw [List.foldlM_cons, h1]; simpa using h2⟩

/-- Value of the final state at a frame `f` processed once by the loop:
it is whatever `f`'s own step wrote, evaluated at a state reachable from
the start (any invariant `P` preserved by in-list steps holds there). -/
theorem foldlM_value (step : LoopSt → ℕ → Option LoopSt) (hl : StepLocal step)
    (P : LoopSt → Prop) :
    ∀ (l : List ℕ), l.Nodup →
      (∀ st fr st2, fr ∈ l → P st → step st fr = some st2 → P st2) →
      ∀ f, f ∈ l → ∀ st st2, l.foldlM step st = some st2 → P st →
      ∃ stA stB, P stA ∧ step stA f = some stB ∧
        st2.pos.getD f vzero = stB.pos.getD f vzero ∧
        st2.res.getD f 0 = stB.res.getD f 0 ∧
        (stB.upd = true → st2.upd = true) ∧
        stA.pos.getD f vzero = st.pos.getD f vzero ∧
        stA.res.getD f 0 = st.res.getD f 0
  | [], _, _, f, hf, _, _, _, _ => absurd hf (List.not_mem_nil f)
  | x :: t, hnd, hstep, f, hf, st, st2, h, hP => by
    rw [List.foldlM_cons] at h
    cases hx : step st x with
    | none => rw [hx] at h; cases h
    | some st1 =>
      rw [hx] at h
      simp only [Option.bind_eq_bind, Option.some_bind] at h
      rcases List.mem_cons.mp hf with he | hm
      · subst he
        have hnt : f ∉ t := (List.nodup_cons.mp hnd).1
        obtain ⟨a, b, _, _⟩ := foldlM_local_untouched step hl t st1 st2 h f hnt
        exact ⟨st, st1, hP, hx, a, b,
          fun hu => foldlM_upd_true step hl t st1 st2 h hu, rfl, rfl⟩
      · have hfx : f ≠ x := fun he =>
          (List.nodup_cons.mp hnd).1 (he ▸ hm)
        obtain ⟨stA, stB, hPA, hsA, e1, e2, e3, e4, e5⟩ :=
          foldlM_value step hl P t (List.nodup_cons.mp hnd).2
            (fun st fr st2 hmm => hstep st fr st2 (List.mem_cons_of_mem _ hmm))
            f hm st1 st2 h (hstep st x st1 (List.mem_cons_self x t) hP hx)
        refine ⟨stA, stB, hPA, hsA, e1, e2, e3, ?_, ?_⟩
        · exact e4.trans ((hl st x st1 hx).2.2.2 f hfx).1
        · exact e5.trans ((hl st x st1 hx).2.2.2 f hfx).2

theorem patternStep_cases (d : List Vec3) (dm : List Bool) (bf : List ℕ)
    (st : LoopSt) (fr : ℕ) (st2 : LoopSt)
    (h : patternStep d dm bf st fr = some st2) :
    st2 = st ∨ ∃ v, st2 = ⟨st.pos.set fr v, st.res.set fr 0, true⟩ := by
  unfold patternStep at h
  split at h
  · cases h
  · split_ifs at h with h1 h2 h3
    · exact Or.inl (Option.some.inj h).symm
    · exact Or.inl (Option.some.inj h).symm
    · exact Or.inl (Option.some.inj h).symm
    · exact Or.inr ⟨_, (Option.some.inj h).symm⟩

theorem rbStep_cases (sq : ℚ → ℚ) (svd : Mat3 → Mat3 × Mat3)
    (clPos : List (List Vec3)) (clMask : List Bool) (allFrs : List ℕ)
    (st : LoopSt) (fr : ℕ) (st2 : LoopSt)
    (h : rbStep sq svd clPos clMask allFrs st fr = some st2) :
    st2 = st ∨ ∃ v, st2 = ⟨st.pos.set fr v, st.res.set fr 0, true⟩ := by
  unfold rbStep at h
  split at h
  · cases h
  · split_ifs at h with h1 h2 h3
    · exact Or.inl (Option.some.inj h).symm
    · exact Or.inl (Option.some.inj h).symm
    · exact Or.inl (Option.some.inj h).symm
    · exact Or.inr ⟨_, (Option.some.inj h).symm⟩

theorem stepLocal_of_cases (step : LoopSt → ℕ → Option LoopSt)
    (hc : ∀ st fr st2, step st fr = some st2 →
      st2 = st ∨ ∃ v, st2 = ⟨st.pos.set fr v, st.res.set fr 0, true⟩) :
    StepLocal step := by
  intro st fr st2 h
  rcases hc st fr st2 h with rfl | ⟨v, rfl⟩
  · exact ⟨rfl, rfl, Or.inl rfl, fun g _ => ⟨rfl, rfl⟩⟩
  · exact ⟨List.length_set _ _ _, List.length_set _ _ _, Or.inr rfl,
      fun g hg => ⟨getD_set_ne _ _ _ _ _ (fun he => hg he.symm),
        getD_set_ne _ _ _ _ _ (fun he => hg he.symm)⟩⟩

/-- Core invariant step: writing an invalid frame's position and zeroing
its residual preserves `FillInv`, whatever the flag becomes. -/
theorem fillInv_write (tgt : MkrData) (st : LoopSt) (fr : ℕ) (v : Vec3)
    (u : Bool) (hfr : (validMask tgt).getD fr false = false)
    (hInv : FillInv tgt (validMask tgt) st) :
    FillInv tgt (validMask tgt) ⟨st.pos.set fr v, st.res.set fr 0, u⟩ := by
  obtain ⟨hlp, hlr, hg⟩ := hInv
  refine ⟨(List.length_set _ _ _).trans hlp, (List.length_set _ _ _).trans hlr, ?_⟩
  intro g
  by_cases hge : g = fr
  · subst hge
    refine Or.inr ⟨hfr, ?_⟩
    by_cases hlt : g < st.res.length
    · exact getD_set_self _ _ _ _ hlt
    · simp only
      rw [List.getD_eq_default _ _ (by simp only [List.length_set]; omega)]
  · rcases hg g with ⟨a, b⟩ | ⟨a, b⟩
    · refine Or.inl ⟨?_, ?_⟩
      · show (st.pos.set fr v).getD g vzero = _
        rw [getD_set_ne _ _ _ _ _ (fun he => hge he.symm)]
        exact a
      · show (st.res.set fr 0).getD g 0 = _
        rw [getD_set_ne _ _ _ _ _ (fun he => hge he.symm)]
        exact b
    · refine Or.inr ⟨a, ?_⟩
      show (st.res.set fr 0).getD g 0 = 0
      rw [getD_set_ne _ _ _ _ _ (fun he => hge he.symm)]
      exact b

theorem fillInv_step (step : LoopSt → ℕ → Option LoopSt)
    (hc : ∀ st fr st2, step st fr = some st2 →
      st2 = st ∨ ∃ v, st2 = ⟨st.pos.set fr v, st.res.set fr 0, true⟩)
    (tgt : MkrData) (st : LoopSt) (fr : ℕ) (st2 : LoopSt)
    (hfr : (validMask tgt).getD fr false = false)
    (hInv : FillInv tgt (validMask tgt) st) (h : step st fr = some st2) :
    FillInv tgt (validMask tgt) st2 := by
  rcases hc st fr st2 h with rfl | ⟨v, rfl⟩
  · exact hInv
  · exact fillInv_write tgt st fr v true hfr hInv

/-- `writeFold` over invalid frames preserves `FillInv`. -/
theorem writeFold_fillInv (tgt : MkrData) (vals : ℕ → Vec3) :
    ∀ (gap : List ℕ) (st : LoopSt),
      (∀ f ∈ gap, (validMask tgt).getD f false = false) →
      FillInv tgt (validMask tgt) st →
      FillInv tgt (validMask tgt) (writeFold vals st gap)
  | [], _, _, hI => hI
  | x :: t, st, hgap, hI =>
    writeFold_fillInv tgt vals t ⟨st.pos.set x (vals x), st.res.set x 0, st.upd⟩
      (fun f hf => hgap f (List.mem_cons_of_mem _ hf))
      (fillInv_write tgt st x (vals x) st.upd (hgap x (List.mem_cons_self x t)) hI)

/-- With at least two common-valid frames, the bracket lookup cannot
raise. -/
theorem bracketFrames_isSome (frs : List ℕ) (h2 : 2 ≤ frs.length) (f : ℕ) :
    ∃ p, bracketFrames frs f = some p := by
  unfold bracketFrames
  dsimp only
  split_ifs with h1 hge
  · have e0 : npGet frs 0 = some (frs.getD 0 0) := by
      unfold npGet
      rw [if_pos le_rfl, List.get?_eq_get (by omega), ← List.getD_eq_get frs 0 (by omega)]
      rfl
    have e1 : npGet frs 1 = some (frs.getD 1 0) := by
      unfold npGet
      rw [if_pos (by omega), List.get?_eq_get (by omega : (1 : ℤ).toNat < frs.length),
        ← List.getD_eq_get frs 0 (by omega : (1 : ℤ).toNat < frs.length)]
      rfl
    rw [e0, e1]
    exact ⟨_, rfl⟩
  · have e0 : npGet frs ((frs.length : ℤ) - 2) = some (frs.getD (frs.length - 2) 0) := by
      unfold npGet
      rw [if_pos (by omega)]
      have ht : ((frs.length : ℤ) - 2).toNat = frs.length - 2 := by omega
      rw [ht, List.get?_eq_get (by omega), ← List.getD_eq_get frs 0 (by omega)]
    have e1 : npGet frs ((frs.length : ℤ) - 1) = some (frs.getD (frs.length - 1) 0) := by
      unfold npGet
      rw [if_pos (by omega)]
      have ht : ((frs.length : ℤ) - 1).toNat = frs.length - 1 := by omega
      rw [ht, List.get?_eq_get (by omega), ← List.getD_eq_get frs 0 (by omega)]
    rw [e0, e1]
    exact ⟨_, rfl⟩
  · have hlt : searchsorted frs f < frs.length := by
      have := searchsorted_le_length frs f
      omega
    have e0 : npGet frs ((searchsorted frs f : ℤ) - 1) =
        some (frs.getD (searchsorted frs f - 1) 0) := by
      unfold npGet
      rw [if_pos (by omega)]
      have ht : ((searchsorted frs f : ℤ) - 1).toNat = searchsorted frs f - 1 := by
        omega
      rw [ht, List.get?_eq_get (by omega), ← List.getD_eq_get frs 0 (by omega)]
    have e1 : npGet frs (searchsorted frs f : ℤ) =
        some (frs.getD (searchsorted frs f) 0) := by
      unfold npGet
      rw [if_pos (by omega)]
      have ht : ((searchsorted frs f : ℤ)).toNat = searchsorted frs f := by omega
      rw [ht, List.get?_eq_get (by omega), ← List.getD_eq_get frs 0 (by omega)]
    rw [e0, e1]
    exact ⟨_, rfl⟩

theorem patternStep_total (d : List Vec3) (dm : List Bool) (bf : List ℕ)
    (h2 : 2 ≤ bf.length) (st : LoopSt) (fr : ℕ) :
    ∃ st2, patternStep d dm bf st fr = some st2 := by
  obtain ⟨p, hp⟩ := bracketFrames_isSome bf h2 fr
  unfold patternStep
  rw [hp]
  obtain ⟨f0, f1⟩ := p
  dsimp only
  split_ifs <;> exact ⟨_, rfl⟩

theorem rbStep_total (sq : ℚ → ℚ) (svd : Mat3 → Mat3 × Mat3)
    (clPos : List (List Vec3)) (clMask : List Bool) (allFrs : List ℕ)
    (h2 : 2 ≤ allFrs.length) (st : LoopSt) (fr : ℕ) :
    ∃ st2, rbStep sq svd clPos clMask allFrs st fr = some st2 := by
  obtain ⟨p, hp⟩ := bracketFrames_isSome allFrs h2 fr
  unfold rbStep
  rw [hp]
  obtain ⟨f0, f1⟩ := p
  dsimp only
  split_ifs <;> exact ⟨_, rfl⟩

/-- Evaluation of one `fill_marker_gap_pattern` iteration when the frame
is properly bracketed and the donor covers the whole span. -/
theorem patternStep_write (d : List Vec3) (dm : List Bool) (bf : List ℕ)
    (st : LoopSt) (f f0 f1 : ℕ) (hp : bf.Pairwise (· < ·))
    (h0 : f0 ∈ bf) (h1 : f1 ∈ bf) (hl : f0 < f) (hr : f < f1)
    (hgap : ∀ g ∈ bf, g ≤ f0 ∨ f1 ≤ g)
    (hd : ∀ g, f0 ≤ g → g ≤ f1 → dm.getD g false = true) :
    patternStep d dm bf st f = some
      ⟨st.pos.set f (vadd (vsub (linInterp st.pos f0 f1 f) (linInterp d f0 f1 f))
          (d.getD f vzero)),
        st.res.set f 0, true⟩ := by
  unfold patternStep
  rw [bracketFrames_eq bf hp f f0 f1 h0 h1 hl hr hgap]
  dsimp only
  have hdm : ¬ (¬ dm.getD f0 false = true ∨ ¬ dm.getD f1 false = true) := by
    rintro (hc | hc)
    · exact hc (hd f0 le_rfl (by omega))
    · exact hc (hd f1 (by omega) le_rfl)
  have hspan : ¬ ((spanFrames f0 f1).any fun g => !dm.getD g false) = true := by
    simp only [spanFrames, List.any_eq_true, not_exists]
    rintro g ⟨hgm, hgb⟩
    have hgr := List.mem_range'_1.mp hgm
    have hgt : dm.getD g false = true := hd g (by omega) (by omega)
    rw [hgt] at hgb
    simp at hgb
  rw [if_neg (by omega), if_neg hdm, if_neg hspan]

theorem gapStep_skip (spline : ℕ → List ℕ → List ℚ → ℕ → ℚ)
    (k soff minfrs n : ℕ) (tmask : List Bool) (st : LoopSt) (gap : List ℕ)
    (h : gap.isEmpty = true ∨ gap.foldl Nat.min (gap.headD 0) = 0 ∨
      gap.foldl Nat.max 0 = n - 1 ∨
      (gapCand soff n tmask gap).count true < minfrs) :
    gapStep spline k soff minfrs n tmask st gap = st := by
  unfold gapStep
  dsimp only
  split_ifs with h1 h2 h3
  · rfl
  · rfl
  · rfl
  · rcases h with hc | hc | hc | hc
    · exact absurd hc h1
    · exact absurd (Or.inl hc) h2
    · exact absurd (Or.inr hc) h2
    · exact absurd hc h3

theorem gapStep_write_eq (spline : ℕ → List ℕ → List ℚ → ℕ → ℚ)
    (k soff minfrs n : ℕ) (tmask : List Bool) (st : LoopSt) (gap : List ℕ)
    (h1 : gap.isEmpty = false)
    (h2 : gap.foldl Nat.min (gap.headD 0) ≠ 0)
    (h3 : gap.foldl Nat.max 0 ≠ n - 1)
    (h4 : ¬ (gapCand soff n tmask gap).count true < minfrs) :
    gapStep spline k soff minfrs n tmask st gap =
      ⟨(writeFold (fun fr =>
          (spline k (whereTrue (gapCand soff n tmask gap))
            ((whereTrue (gapCand soff n tmask gap)).map
              (fun f => (st.pos.getD f vzero).1)) fr,
          spline k (whereTrue (gapCand soff n tmask gap))
            ((whereTrue (gapCand soff n tmask gap)).map
              (fun f => (st.pos.getD f vzero).2.1)) fr,
          spline k (whereTrue (gapCand soff n tmask gap))
            ((whereTrue (gapCand soff n tmask gap)).map
              (fun f => (st.pos.getD f vzero).2.2)) fr)) st gap).pos,
        (writeFold (fun fr =>
          (spline k (whereTrue (gapCand soff n tmask gap))
            ((whereTrue (gapCand soff n tmask gap)).map
              (fun f => (st.pos.getD f vzero).1)) fr,
          spline k (whereTrue (gapCand soff n tmask gap))
            ((whereTrue (gapCand soff n tmask gap)).map
              (fun f => (st.pos.getD f vzero).2.1)) fr,
          spline k (whereTrue (gapCand soff n tmask gap))
            ((whereTrue (gapCand soff n tmask gap)).map
              (fun f => (st.pos.getD f vzero).2.2)) fr)) st gap).res,
        true⟩ := by
  unfold gapStep
  dsimp only
  rw [if_neg (by rw [h1]; exact fun hc => nomatch hc), if_neg (by
    rintro (hc | hc)
    · exact h2 hc
    · exact h3 hc), if_neg h4]

theorem gapStep_untouched (spline : ℕ → List ℕ → List ℚ → ℕ → ℚ)
    (k soff minfrs n : ℕ) (tmask : List Bool) (st : LoopSt) (gap : List ℕ)
    (f : ℕ) (hf : f ∉ gap) :
    (gapStep spline k soff minfrs n tmask st gap).pos.getD f vzero =
      st.pos.getD f vzero ∧
    (gapStep spline k soff minfrs n tmask st gap).res.getD f 0 =
      st.res.getD f 0 := by
  unfold gapStep
  dsimp only
  split_ifs
  · exact ⟨rfl, rfl⟩
  · exact ⟨rfl, rfl⟩
  · exact ⟨rfl, rfl⟩
  · exact writeFold_untouched _ gap st f hf

theorem gapStep_upd (spline : ℕ → List ℕ → List ℚ → ℕ → ℚ)
    (k soff minfrs n : ℕ) (tmask : List Bool) (st : LoopSt) (gap : List ℕ) :
    (gapStep spline k soff minfrs n tmask st gap).upd = st.upd ∨
      (gapStep spline k soff minfrs n tmask st gap).upd = true := by
  unfold gapStep
  dsimp only
  split_ifs
  · exact Or.inl rfl
  · exact Or.inl rfl
  · exact Or.inl rfl
  · exact Or.inr rfl

theorem gapStep_fillInv (spline : ℕ → List ℕ → List ℚ → ℕ → ℚ)
    (k soff minfrs : ℕ) (tgt : MkrData) (st : LoopSt) (gap : List ℕ)
    (hgap : ∀ f ∈ gap, (validMask tgt).getD f false = false)
    (hI : FillInv tgt (validMask tgt) st) :
    FillInv tgt (validMask tgt)
      (gapStep spline k soff minfrs tgt.res.length (validMask tgt) st gap) := by
  unfold gapStep
  dsimp only
  split_ifs
  · exact hI
  · exact hI
  · exact hI
  · obtain ⟨a, b, c⟩ := writeFold_fillInv tgt _ gap st hgap hI
    exact ⟨a, b, c⟩

theorem foldl_gaps_untouched (step : LoopSt → List ℕ → LoopSt)
    (hloc : ∀ st g f, f ∉ g →
      (step st g).pos.getD f vzero = st.pos.getD f vzero ∧
      (step st g).res.getD f 0 = st.res.getD f 0) :
    ∀ (gaps : List (List ℕ)) (st : LoopSt) (f : ℕ), (∀ g ∈ gaps, f ∉ g) →
      (gaps.foldl step st).pos.getD f vzero = st.pos.getD f vzero ∧
      (gaps.foldl step st).res.getD f 0 = st.res.getD f 0
  | [], _, _, _ => ⟨rfl, rfl⟩
  | g :: t, st, f, hall => by
    have hrec := foldl_gaps_untouched step hloc t (step st g) f
      (fun g2 hg2 => hall g2 (List.mem_cons_of_mem _ hg2))
    have hg := hloc st g f (hall g (List.mem_cons_self g t))
    exact ⟨hrec.1.trans hg.1, hrec.2.trans hg.2⟩

theorem foldl_gaps_upd_true (step : LoopSt → List ℕ → LoopSt)
    (hupd : ∀ st g, (step st g).upd = st.upd ∨ (step st g).upd = true) :
    ∀ (gaps : List (List ℕ)) (st : LoopSt), st.upd = true →
      (gaps.foldl step st).upd = true
  | [], _, hu => hu
  | g :: t, st, hu => by
    refine foldl_gaps_upd_true step hupd t (step st g) ?_
    rcases hupd st g with h | h
    · rw [h, hu]
    · exact h

theorem foldl_gaps_value (step : LoopSt → List ℕ → LoopSt)
    (hloc : ∀ st g f, f ∉ g →
      (step st g).pos.getD f vzero = st.pos.getD f vzero ∧
      (step st g).res.getD f 0 = st.res.getD f 0)
    (hupd : ∀ st g, (step st g).upd = st.upd ∨ (step st g).upd = true)
    (P : LoopSt → Prop) :
    ∀ (gaps : List (List ℕ)),
      (∀ st g, g ∈ gaps → P st → P (step st g)) →
      gaps.Pairwise (fun g1 g2 => ∀ x ∈ g1, x ∉ g2) →
      ∀ (gap : List ℕ), gap ∈ gaps → ∀ (f : ℕ), f ∈ gap →
      ∀ (st : LoopSt), P st →
      ∃ stA, P stA ∧ stA.pos.getD f vzero = st.pos.getD f vzero ∧
        stA.res.getD f 0 = st.res.getD f 0 ∧
        (gaps.foldl step st).pos.getD f vzero = (step stA gap).pos.getD f vzero ∧
        (gaps.foldl step st).res.getD f 0 = (step stA gap).res.getD f 0 ∧
        ((step stA gap).upd = true → (gaps.foldl step st).upd = true)
  | [], _, _, gap, hmem, _, _, _, _ => absurd hmem (List.not_mem_nil gap)
  | g :: t, hP, hpw, gap, hmem, f, hf, st, hPst => by
    rcases List.mem_cons.mp hmem with he | hm
    · subst he
      have hother : ∀ g2 ∈ t, f ∉ g2 := by
        intro g2 hg2 hfg2
        exact (List.pairwise_cons.mp hpw).1 g2 hg2 f hf hfg2
      refine ⟨st, hPst, rfl, rfl, ?_, ?_, ?_⟩
      · exact (foldl_gaps_untouched step hloc t (step st gap) f hother).1
      · exact (foldl_gaps_untouched step hloc t (step st gap) f hother).2
      · intro hu
        exact foldl_gaps_upd_true step hupd t (step st gap) hu
    · have hfng : f ∉ g := by
        intro hfg
        exact (List.pairwise_cons.mp hpw).1 gap hm f hfg hf
      obtain ⟨stA, h1, h2, h3, h4, h5, h6⟩ :=
        foldl_gaps_value step hloc hupd P t
          (fun st g2 hg2 => hP st g2 (List.mem_cons_of_mem _ hg2))
          (List.pairwise_cons.mp hpw).2 gap hm f hf (step st g)
          (hP st g (List.mem_cons_self g t) hPst)
      have hpre := hloc st g f hfng
      exact ⟨stA, h1, h2.trans hpre.1, h3.trans hpre.2, h4, h5, h6⟩

/-! ## Mask lemmas -/

theorem length_validMask (md : MkrData) :
    (validMask md).length = md.res.length := List.length_map _ _

theorem length_notMask (m : List Bool) : (notMask m).length = m.length :=
  List.length_map _ _

theorem getD_notMask (m : List Bool) (i : ℕ) (h : i < m.length) :
    (notMask m).getD i false = ! m.getD i false := by
  rw [List.getD_eq_getElem _ _ (by rw [length_notMask]; exact h),
    List.getD_eq_getElem _ _ h]
  simp [notMask]

theorem getD_andMask (a b : List Bool) (i : ℕ) (ha : i < a.length)
    (hb : i < b.length) :
    (andMask a b).getD i false = (a.getD i false && b.getD i false) := by
  rw [List.getD_eq_getElem _ _ (by rw [andMask, List.length_zipWith]; omega),
    List.getD_eq_getElem _ _ ha, List.getD_eq_getElem _ _ hb]
  simp [andMask]

theorem mem_whereTrue_andMask {a b : List Bool} {i : ℕ}
    (h : i ∈ whereTrue (andMask a b)) :
    i < a.length ∧ i < b.length ∧ a.getD i false = true ∧
      b.getD i false = true := by
  obtain ⟨hlen, hval⟩ := mem_whereTrue.mp h
  rw [andMask, List.length_zipWith] at hlen
  have hla : i < a.length := by omega
  have hlb : i < b.length := by omega
  rw [getD_andMask a b i hla hlb] at hval
  rw [Bool.and_eq_true] at hval
  exact ⟨hla, hlb, hval.1, hval.2⟩

theorem any_id_of_getD {m : List Bool} {i : ℕ} (h : i < m.length)
    (hv : m.getD i false = true) : m.any id = true := by
  rw [List.any_eq_true]
  refine ⟨m.getD i false, ?_, by rw [hv]; rfl⟩
  rw [List.getD_eq_getElem _ _ h]
  exact List.getElem_mem _

theorem linInterp_congr (P Q : List Vec3) (f0 f1 f : ℕ)
    (h0 : P.getD f0 vzero = Q.getD f0 vzero)
    (h1 : P.getD f1 vzero = Q.getD f1 vzero) :
    linInterp P f0 f1 f = linInterp Q f0 f1 f := by
  unfold linInterp
  rw [h0, h1]

/-- If target and donor differ by the constant vector `c` at both bracket
frames, the pattern-fill expression collapses to `donor + c` exactly. -/
theorem linInterp_const_offset (T D : List Vec3) (f0 f1 f : ℕ) (c : Vec3)
    (h0 : vsub (T.getD f0 vzero) (D.getD f0 vzero) = c)
    (h1 : vsub (T.getD f1 vzero) (D.getD f1 vzero) = c) :
    vadd (vsub (linInterp T f0 f1 f) (linInterp D f0 f1 f)) (D.getD f vzero) =
      vadd (D.getD f vzero) c := by
  have h01 := congrArg Prod.fst h0
  have h02 := congrArg (fun v : Vec3 => v.2.1) h0
  have h03 := congrArg (fun v : Vec3 => v.2.2) h0
  have h11 := congrArg Prod.fst h1
  have h12 := congrArg (fun v : Vec3 => v.2.1) h1
  have h13 := congrArg (fun v : Vec3 => v.2.2) h1
  simp only [vsub] at h01 h02 h03 h11 h12 h13
  simp only [linInterp, vadd, vsub, vsmul]
  have hPe : ∀ x y : Vec3, x.1 = y.1 → x.2.1 = y.2.1 → x.2.2 = y.2.2 → x = y := by
    intro x y e1 e2 e3
    obtain ⟨x1, x2, x3⟩ := x
    obtain ⟨y1, y2, y3⟩ := y
    simp only at e1 e2 e3
    rw [e1, e2, e3]
  refine hPe _ _ ?_ ?_ ?_
  · simp only
    linear_combination (((f : ℚ) - (f0 : ℚ)) / ((f1 : ℚ) - (f0 : ℚ))) * h11 +
      (1 - ((f : ℚ) - (f0 : ℚ)) / ((f1 : ℚ) - (f0 : ℚ))) * h01
  · simp only
    linear_combination (((f : ℚ) - (f0 : ℚ)) / ((f1 : ℚ) - (f0 : ℚ))) * h12 +
      (1 - ((f : ℚ) - (f0 : ℚ)) / ((f1 : ℚ) - (f0 : ℚ))) * h02
  · simp only
    linear_combination (((f : ℚ) - (f0 : ℚ)) / ((f1 : ℚ) - (f0 : ℚ))) * h13 +
      (1 - ((f : ℚ) - (f0 : ℚ)) / ((f1 : ℚ) - (f0 : ℚ))) * h03

/-! ## Basic algebraic lemmas -/

theorem det3_mulM (m n : Mat3) : det3 (mulM m n) = det3 m * det3 n := by
  obtain ⟨⟨a, b, c⟩, ⟨d, e, f⟩, ⟨g, h, i⟩⟩ := m
  obtain ⟨⟨a2, b2, c2⟩, ⟨d2, e2, f2⟩, ⟨g2, h2, i2⟩⟩ := n
  simp only [det3, mulM, mulVec, transposeM, matOfCols, vdot]
  ring

theorem det3_transposeM (m : Mat3) : det3 (transposeM m) = det3 m := by
  obtain ⟨⟨a, b, c⟩, ⟨d, e, f⟩, ⟨g, h, i⟩⟩ := m
  simp only [det3, transposeM, matOfCols]
  ring

theorem det3_midty : det3 midty = 1 := by
  simp only [det3, midty]
  norm_num

theorem det3_diagM (a b c : ℚ) : det3 (diagM a b c) = a * b * c := by
  simp only [det3, diagM]
  ring

/-! ## Claim theorems -/

/-- C2: for every pair of equal-length point sets `A`, `B` with at least 3
points, and every singular value decomposition of the cross-covariance
matrix (any `svd` oracle whose `U` and `Vt` factors are orthogonal), the
rigid fit solver `RBT` returns a rotation of determinant exactly `+1`
(the `diag(1, 1, det(U·Vt))` factor corrects a raw reflection) and a
translation equal to `centroid(B) - R·centroid(A)`. -/
theorem rbt_proper_rotation (sq : ℚ → ℚ) (svd : Mat3 → Mat3 × Mat3)
    (A B : List Vec3) (_hlen : A.length = B.length) (_h3 : 3 ≤ A.length)
    (hU : mulM (svd (covMat A B)).1 (transposeM (svd (covMat A B)).1) = midty)
    (hV : mulM (svd (covMat A B)).2 (transposeM (svd (covMat A B)).2) = midty) :
    det3 (RBT sq svd A B).R = 1 ∧
    (RBT sq svd A B).L = vsub (vmean B) (mulVec (RBT sq svd A B).R (vmean A)) := by
  have hu : det3 (svd (covMat A B)).1 * det3 (svd (covMat A B)).1 = 1 := by
    have h := congrArg det3 hU
    rwa [det3_mulM, det3_transposeM, det3_midty] at h
  have hv : det3 (svd (covMat A B)).2 * det3 (svd (covMat A B)).2 = 1 := by
    have h := congrArg det3 hV
    rwa [det3_mulM, det3_transposeM, det3_midty] at h
  refine ⟨?_, rfl⟩
  show det3 (mulM (svd (covMat A B)).1
    (mulM (diagM 1 1 (det3 (mulM (svd (covMat A B)).1 (svd (covMat A B)).2)))
      (svd (covMat A B)).2)) = 1
  rw [det3_mulM, det3_mulM, det3_diagM, det3_mulM]
  linear_combination
    (det3 (svd (covMat A B)).2 * det3 (svd (covMat A B)).2) * hu + hv

/-- Witness for C2 at a concrete input whose raw `U·Vt` has determinant
`-1`, so the reflection-correcting branch is exercised. -/
theorem rbt_proper_rotation_witness :
    det3 (RBT ratSqrt (fun _ => (midty, diagM 1 1 (-1)))
      [(1, 0, 0), (0, 1, 0), (0, 0, 1)] [(1, 0, 0), (0, 1, 0), (0, 0, 1)]).R = 1 ∧
    (RBT ratSqrt (fun _ => (midty, diagM 1 1 (-1)))
      [(1, 0, 0), (0, 1, 0), (0, 0, 1)] [(1, 0, 0), (0, 1, 0), (0, 0, 1)]).L =
      vsub (vmean [(1, 0, 0), (0, 1, 0), (0, 0, 1)])
        (mulVec (RBT ratSqrt (fun _ => (midty, diagM 1 1 (-1)))
          [(1, 0, 0), (0, 1, 0), (0, 0, 1)] [(1, 0, 0), (0, 1, 0), (0, 0, 1)]).R
          (vmean [(1, 0, 0), (0, 1, 0), (0, 0, 1)])) :=
  rbt_proper_rotation ratSqrt (fun _ => (midty, diagM 1 1 (-1)))
    [(1, 0, 0), (0, 1, 0), (0, 0, 1)] [(1, 0, 0), (0, 1, 0), (0, 0, 1)]
    (by decide) (by decide) (by with_unfolding_all rfl) (by with_unfolding_all rfl)

/-- C1: on a degenerate trajectory (every frame valid or every frame
invalid — validity derived from the residual via `np.isclose(·, -1)`),
each of the five strategies returns `updated = false` with the current
valid-frame count, performs no write-back through the store adapter, and
leaves the target positions and residuals unchanged. -/
theorem c1_degenerate_noop (sq : ℚ → ℚ) (svd : Mat3 → Mat3 × Mat3)
    (spline : ℕ → List ℕ → List ℚ → ℕ → ℚ) (tgt dnr : MkrData)
    (cl : List MkrData) (k soff minfrs : ℕ)
    (h : (validMask tgt).count true = 0 ∨
      (validMask tgt).count true = tgt.res.length) :
    recover_marker_relative sq tgt cl =
      ⟨false, (validMask tgt).count true, tgt.pos, tgt.res, false⟩ ∧
    recover_marker_rigidbody sq tgt cl =
      ⟨false, (validMask tgt).count true, tgt.pos, tgt.res, false⟩ ∧
    fill_marker_gap_rigidbody sq svd tgt cl =
      some ⟨false, (validMask tgt).count true, tgt.pos, tgt.res, false⟩ ∧
    fill_marker_gap_pattern tgt dnr =
      some ⟨false, (validMask tgt).count true, tgt.pos, tgt.res, false⟩ ∧
    fill_marker_gap_interp spline tgt k soff minfrs =
      ⟨false, (validMask tgt).count true, tgt.pos, tgt.res, false⟩ := by
  refine ⟨?_, ?_, ?_, ?_, ?_⟩
  · simp only [recover_marker_relative]
    split_ifs with h1 h2 h3 h4 <;>
      first
        | rfl
        | (rcases h with h | h
           · exact absurd h h1
           · exact absurd h h2)
  · simp only [recover_marker_rigidbody]
    split_ifs with h1 h2 h3 h4 <;>
      first
        | rfl
        | (rcases h with h | h
           · exact absurd h h1
           · exact absurd h h2)
  · simp only [fill_marker_gap_rigidbody]
    split_ifs with h1 h2 h3 h4 <;>
      first
        | rfl
        | (rcases h with h | h
           · exact absurd h h1
           · exact absurd h h2)
  · simp only [fill_marker_gap_pattern]
    rw [if_pos h]
  · simp only [fill_marker_gap_interp]
    rw [if_pos h]

/-- Witness for C1 at a concrete fully-valid two-frame trajectory. -/
theorem c1_degenerate_noop_witness :
    recover_marker_relative ratSqrt ⟨[(1, 2, 3), (4, 5, 6)], [0, 0]⟩ [] =
      ⟨false, (validMask ⟨[(1, 2, 3), (4, 5, 6)], [0, 0]⟩).count true,
        [(1, 2, 3), (4, 5, 6)], [0, 0], false⟩ ∧
    recover_marker_rigidbody ratSqrt ⟨[(1, 2, 3), (4, 5, 6)], [0, 0]⟩ [] =
      ⟨false, (validMask ⟨[(1, 2, 3), (4, 5, 6)], [0, 0]⟩).count true,
        [(1, 2, 3), (4, 5, 6)], [0, 0], false⟩ ∧
    fill_marker_gap_rigidbody ratSqrt (fun _ => (midty, midty))
        ⟨[(1, 2, 3), (4, 5, 6)], [0, 0]⟩ [] =
      some ⟨false, (validMask ⟨[(1, 2, 3), (4, 5, 6)], [0, 0]⟩).count true,
        [(1, 2, 3), (4, 5, 6)], [0, 0], false⟩ ∧
    fill_marker_gap_pattern ⟨[(1, 2, 3), (4, 5, 6)], [0, 0]⟩
        ⟨[(1, 2, 3), (4, 5, 6)], [0, 0]⟩ =
      some ⟨false, (validMask ⟨[(1, 2, 3), (4, 5, 6)], [0, 0]⟩).count true,
        [(1, 2, 3), (4, 5, 6)], [0, 0], false⟩ ∧
    fill_marker_gap_interp (fun _ _ _ _ => 0) ⟨[(1, 2, 3), (4, 5, 6)], [0, 0]⟩ 3 5 10 =
      ⟨false, (validMask ⟨[(1, 2, 3), (4, 5, 6)], [0, 0]⟩).count true,
        [(1, 2, 3), (4, 5, 6)], [0, 0], false⟩ :=
  c1_degenerate_noop ratSqrt (fun _ => (midty, midty)) (fun _ _ _ _ => 0)
    ⟨[(1, 2, 3), (4, 5, 6)], [0, 0]⟩ ⟨[(1, 2, 3), (4, 5, 6)], [0, 0]⟩ [] 3 5 10
    (Or.inr (by with_unfolding_all rfl))

/-- C8 (refuting theorem): with exactly one common-valid anchor frame and
an invalid target frame before it, the bracket lookup indexes element 1 of
a length-1 frame array and raises `IndexError` (modelled as `none`) in
both `fill_marker_gap_pattern` and `fill_marker_gap_rigidbody`, instead of
silently skipping the frame. -/
theorem c8_single_anchor_index_error :
    fill_marker_gap_pattern ⟨[(0, 0, 0), (1, 1, 1)], [-1, 0]⟩
      ⟨[(5, 0, 0), (6, 0, 0)], [0, 0]⟩ = none ∧
    fill_marker_gap_rigidbody ratSqrt (fun _ => (midty, midty))
      ⟨[(0, 0, 0), (1, 1, 1)], [-1, 0]⟩ [⟨[(5, 0, 0), (6, 0, 0)], [0, 0]⟩] = none := by
  constructor <;> with_unfolding_all rfl

/-- C5 (counterexample): a 4-marker cluster over 2 frames.  The three
selected references (cluster indices 0, 1, 2, the three nearest) are valid
at frame 1 and the target is not, and an anchor frame (frame 0, all
markers and target valid) exists — yet `recover_marker_relative` repairs
nothing and returns `updated = false`, because the repair mask demands
validity of the whole cluster and the fourth marker is invalid at
frame 1. -/
theorem c5_counterexample :
    refIdx ratSqrt 2 ⟨[(0, 0, 0), (0, 0, 0)], [0, -1]⟩
      [⟨[(1, 0, 0), (1, 0, 0)], [0, 0]⟩, ⟨[(2, 0, 0), (2, 0, 0)], [0, 0]⟩,
       ⟨[(0, 3, 0), (0, 3, 0)], [0, 0]⟩, ⟨[(0, 0, 4), (0, 0, 4)], [0, -1]⟩] 0 = 0 ∧
    refIdx ratSqrt 2 ⟨[(0, 0, 0), (0, 0, 0)], [0, -1]⟩
      [⟨[(1, 0, 0), (1, 0, 0)], [0, 0]⟩, ⟨[(2, 0, 0), (2, 0, 0)], [0, 0]⟩,
       ⟨[(0, 3, 0), (0, 3, 0)], [0, 0]⟩, ⟨[(0, 0, 4), (0, 0, 4)], [0, -1]⟩] 1 = 1 ∧
    refIdx ratSqrt 2 ⟨[(0, 0, 0), (0, 0, 0)], [0, -1]⟩
      [⟨[(1, 0, 0), (1, 0, 0)], [0, 0]⟩, ⟨[(2, 0, 0), (2, 0, 0)], [0, 0]⟩,
       ⟨[(0, 3, 0), (0, 3, 0)], [0, 0]⟩, ⟨[(0, 0, 4), (0, 0, 4)], [0, -1]⟩] 2 = 2 ∧
    (∀ j ∈ [0, 1, 2],
      resid_valid ((([⟨[(1, 0, 0), (1, 0, 0)], [0, 0]⟩, ⟨[(2, 0, 0), (2, 0, 0)], [0, 0]⟩,
        ⟨[(0, 3, 0), (0, 3, 0)], [0, 0]⟩,
        ⟨[(0, 0, 4), (0, 0, 4)], [0, -1]⟩] : List MkrData).getD j ⟨[], []⟩).res.getD 1 0) = true) ∧
    resid_valid (((-1 : ℚ))) = false ∧
    resid_valid ((0 : ℚ)) = true ∧
    recover_marker_relative ratSqrt ⟨[(0, 0, 0), (0, 0, 0)], [0, -1]⟩
      [⟨[(1, 0, 0), (1, 0, 0)], [0, 0]⟩, ⟨[(2, 0, 0), (2, 0, 0)], [0, 0]⟩,
       ⟨[(0, 3, 0), (0, 3, 0)], [0, 0]⟩, ⟨[(0, 0, 4), (0, 0, 4)], [0, -1]⟩] =
      ⟨false, 1, [(0, 0, 0), (0, 0, 0)], [0, -1], false⟩ := by
  refine ⟨?_, ?_, ?_, ?_, ?_, ?_, ?_⟩ <;> first
    | with_unfolding_all rfl
    | (intro j hj; fin_cases hj <;> with_unfolding_all rfl)

/-- C7 (counterexample): target valid only at frame 0; cluster marker 0 is
at distance 1 on the common-valid frame but its stored position at the
invalid frame is far away.  The code averages over all frames
(`blocked_nan=False` leaves no NaN for `nanmean` to drop), giving marker 0
the mean 5 instead of the claimed both-valid mean 1, and therefore selects
marker 1 as the nearest reference where the claim's rule selects
marker 0. -/
theorem c7_counterexample :
    meanDistAll ratSqrt 2 [(0, 0, 0), (0, 0, 0)] [(1, 0, 0), (9, 0, 0)] = 5 ∧
    claimMeanDistBothValid ratSqrt 2 ⟨[(0, 0, 0), (0, 0, 0)], [0, -1]⟩
      ⟨[(1, 0, 0), (9, 0, 0)], [0, 0]⟩ = 1 ∧
    refIdx ratSqrt 2 ⟨[(0, 0, 0), (0, 0, 0)], [0, -1]⟩
      [⟨[(1, 0, 0), (9, 0, 0)], [0, 0]⟩, ⟨[(3, 0, 0), (3, 0, 0)], [0, 0]⟩,
       ⟨[(4, 0, 0), (4, 0, 0)], [0, 0]⟩] 0 = 1 ∧
    claimRefIdx ratSqrt 2 ⟨[(0, 0, 0), (0, 0, 0)], [0, -1]⟩
      [⟨[(1, 0, 0), (9, 0, 0)], [0, 0]⟩, ⟨[(3, 0, 0), (3, 0, 0)], [0, 0]⟩,
       ⟨[(4, 0, 0), (4, 0, 0)], [0, 0]⟩] 0 = 0 := by
  refine ⟨?_, ?_, ?_, ?_⟩ <;> with_unfolding_all rfl

/-- C3: in `fill_marker_gap_pattern`, an invalid frame `f` whose brackets
`f0 < f < f1` are consecutive common-valid frames with the donor valid on
all of `[f0, f1]` is written as `donor(f)` plus the difference of the
linear interpolations of target and donor between the brackets;
consequently, if target minus donor equals one constant vector `c` at both
brackets, the repaired frame satisfies `target(f) = donor(f) + c`
exactly. -/
theorem c3_pattern_fill_formula (tgt dnr : MkrData) (f f0 f1 : ℕ)
    (hlp : tgt.pos.length = tgt.res.length)
    (hnv0 : (validMask tgt).count true ≠ 0)
    (hnvn : (validMask tgt).count true ≠ tgt.res.length)
    (h2 : 2 ≤ (whereTrue (andMask (validMask tgt) (validMask dnr))).length)
    (hfn : f < tgt.res.length)
    (hfi : (validMask tgt).getD f false = false)
    (h0 : f0 ∈ whereTrue (andMask (validMask tgt) (validMask dnr)))
    (h1 : f1 ∈ whereTrue (andMask (validMask tgt) (validMask dnr)))
    (hl : f0 < f) (hr : f < f1)
    (hgap : ∀ g ∈ whereTrue (andMask (validMask tgt) (validMask dnr)),
      g ≤ f0 ∨ f1 ≤ g)
    (hd : ∀ g, f0 ≤ g → g ≤ f1 → (validMask dnr).getD g false = true) :
    ∃ r, fill_marker_gap_pattern tgt dnr = some r ∧ r.updated = true ∧
      r.pos.getD f vzero =
        vadd (vsub (linInterp tgt.pos f0 f1 f) (linInterp dnr.pos f0 f1 f))
          (dnr.pos.getD f vzero) ∧
      (∀ c : Vec3, vsub (tgt.pos.getD f0 vzero) (dnr.pos.getD f0 vzero) = c →
        vsub (tgt.pos.getD f1 vzero) (dnr.pos.getD f1 vzero) = c →
        r.pos.getD f vzero = vadd (dnr.pos.getD f vzero) c) := by
  obtain ⟨hl0a, hl0b, hv0a, hv0b⟩ := mem_whereTrue_andMask h0
  have hdany : (validMask dnr).any id = true := any_id_of_getD hl0b hv0b
  have hbany : (andMask (validMask tgt) (validMask dnr)).any id = true := by
    obtain ⟨hlen, hval⟩ := mem_whereTrue.mp h0
    exact any_id_of_getD hlen hval
  obtain ⟨stF, hstF⟩ := foldlM_total _
    (patternStep_total dnr.pos (validMask dnr)
      (whereTrue (andMask (validMask tgt) (validMask dnr))) h2)
    (whereTrue (notMask (validMask tgt))) ⟨tgt.pos, tgt.res, false⟩
  have hfmem : f ∈ whereTrue (notMask (validMask tgt)) := by
    refine mem_whereTrue.mpr ⟨?_, ?_⟩
    · rw [length_notMask, length_validMask]
      exact hfn
    · rw [getD_notMask _ _ (by rw [length_validMask]; exact hfn), hfi]
      rfl
  have hloc : StepLocal (patternStep dnr.pos (validMask dnr)
      (whereTrue (andMask (validMask tgt) (validMask dnr)))) :=
    stepLocal_of_cases _ (patternStep_cases dnr.pos (validMask dnr) _)
  have hinv0 : FillInv tgt (validMask tgt) ⟨tgt.pos, tgt.res, false⟩ :=
    ⟨rfl, rfl, fun _ => Or.inl ⟨rfl, rfl⟩⟩
  have hstep_inv : ∀ st fr st2, fr ∈ whereTrue (notMask (validMask tgt)) →
      FillInv tgt (validMask tgt) st →
      patternStep dnr.pos (validMask dnr)
        (whereTrue (andMask (validMask tgt) (validMask dnr))) st fr = some st2 →
      FillInv tgt (validMask tgt) st2 := by
    intro st fr st2 hm hI he
    obtain ⟨hml, hmv⟩ := mem_whereTrue.mp hm
    rw [length_notMask] at hml
    rw [getD_notMask _ _ hml] at hmv
    have hfrv : (validMask tgt).getD fr false = false := by
      cases hb : (validMask tgt).getD fr false
      · rfl
      · rw [hb] at hmv; cases hmv
    exact fillInv_step _ (patternStep_cases _ _ _) tgt st fr st2 hfrv hI he
  obtain ⟨stA, stB, hPA, hstepA, hposeq, _, hupd, _, _⟩ :=
    foldlM_value _ hloc (FillInv tgt (validMask tgt)) _
      (whereTrue_nodup _) hstep_inv f hfmem _ stF hstF hinv0
  have hwrite := patternStep_write dnr.pos (validMask dnr)
    (whereTrue (andMask (validMask tgt) (validMask dnr))) stA f f0 f1
    (whereTrue_pairwise _) h0 h1 hl hr hgap hd
  have hstB : stB = ⟨stA.pos.set f
      (vadd (vsub (linInterp stA.pos f0 f1 f) (linInterp dnr.pos f0 f1 f))
        (dnr.pos.getD f vzero)), stA.res.set f 0, true⟩ :=
    Option.some.inj (hstepA.symm.trans hwrite)
  obtain ⟨hl1a, hl1b, hv1a, hv1b⟩ := mem_whereTrue_andMask h1
  have hA0 : stA.pos.getD f0 vzero = tgt.pos.getD f0 vzero := by
    rcases hPA.2.2 f0 with ⟨a, _⟩ | ⟨a, _⟩
    · exact a
    · rw [hv0a] at a; cases a
  have hA1 : stA.pos.getD f1 vzero = tgt.pos.getD f1 vzero := by
    rcases hPA.2.2 f1 with ⟨a, _⟩ | ⟨a, _⟩
    · exact a
    · rw [hv1a] at a; cases a
  have hflt : f < stA.pos.length := by
    rw [hPA.1, hlp]
    exact hfn
  have hstBpos : stB.pos.getD f vzero =
      vadd (vsub (linInterp tgt.pos f0 f1 f) (linInterp dnr.pos f0 f1 f))
        (dnr.pos.getD f vzero) := by
    rw [hstB]
    simp only
    rw [getD_set_self _ _ _ _ hflt,
      linInterp_congr stA.pos tgt.pos f0 f1 f hA0 hA1]
  have hupd2 : stF.upd = true := hupd (by rw [hstB])
  have hfinal : stF.pos.getD f vzero =
      vadd (vsub (linInterp tgt.pos f0 f1 f) (linInterp dnr.pos f0 f1 f))
        (dnr.pos.getD f vzero) := hposeq.trans hstBpos
  refine ⟨⟨true, (stF.res.map resid_valid).count true, stF.pos, stF.res, true⟩,
    ?_, rfl, hfinal, ?_⟩
  · simp only [fill_marker_gap_pattern]
    rw [if_neg (by rintro (hc | hc); exact hnv0 hc; exact hnvn hc),
      if_neg (not_not_intro hdany), if_neg (not_not_intro hbany), hstF]
    dsimp only
    rw [if_pos hupd2]
  · intro c hc0 hc1
    rw [hfinal]
    exact linInterp_const_offset tgt.pos dnr.pos f0 f1 f c hc0 hc1

/-- C6: in `fill_marker_gap_rigidbody`, an invalid target frame `f` is
repaired only when bracket anchor frames `f0 < f < f1` exist (anchors
being frames where the target and the full cluster set are valid, and
`f0`, `f1` the consecutive anchors around `f`) and every cluster marker is
valid at every frame of `[f0, f1]`; the written position is the
frame-distance blend of the two rigid-fit predictions mapping the cluster
configuration at `f0` (resp. `f1`) onto that at `f` and applying each
transform to the corresponding bracket's target position, and the repaired
residual is `0`. -/
theorem c6_rigidbody_fill_bracketed (sq : ℚ → ℚ) (svd : Mat3 → Mat3 × Mat3)
    (tgt : MkrData) (cl : List MkrData) (f : ℕ) (r : StratResult)
    (hlp : tgt.pos.length = tgt.res.length)
    (hres : fill_marker_gap_rigidbody sq svd tgt cl = some r)
    (hrep : r.res.getD f 0 ≠ tgt.res.getD f 0) :
    ∃ f0 f1,
      f0 ∈ whereTrue (andMask (clValidMask tgt.res.length cl) (validMask tgt)) ∧
      f1 ∈ whereTrue (andMask (clValidMask tgt.res.length cl) (validMask tgt)) ∧
      f0 < f ∧ f < f1 ∧
      (∀ g ∈ whereTrue (andMask (clValidMask tgt.res.length cl) (validMask tgt)),
        g ≤ f0 ∨ f1 ≤ g) ∧
      (∀ g, f0 ≤ g → g ≤ f1 →
        (clValidMask tgt.res.length cl).getD g false = true) ∧
      r.res.getD f 0 = 0 ∧
      r.pos.getD f vzero =
        vadd (vsmul (((f : ℚ) - (f0 : ℚ)) / ((f1 : ℚ) - (f0 : ℚ)))
          (vsub (rbPred sq svd (cl.map MkrData.pos) f1 f (tgt.pos.getD f1 vzero))
            (rbPred sq svd (cl.map MkrData.pos) f0 f (tgt.pos.getD f0 vzero))))
          (rbPred sq svd (cl.map MkrData.pos) f0 f (tgt.pos.getD f0 vzero)) := by
  simp only [fill_marker_gap_rigidbody] at hres
  split_ifs at hres with d1 d2 d3 d4
  all_goals try (rw [← Option.some.inj hres] at hrep; exact absurd rfl hrep)
  cases hf : List.foldlM
        (rbStep sq svd (cl.map MkrData.pos) (clValidMask tgt.res.length cl)
          (whereTrue (andMask (clValidMask tgt.res.length cl) (validMask tgt))))
        ⟨tgt.pos, tgt.res, false⟩
        (whereTrue (andMask (clValidMask tgt.res.length cl)
          (notMask (validMask tgt)))) with
    | none => rw [hf] at hres; cases hres
    | some stF =>
      rw [hf] at hres
      dsimp only at hres
      split_ifs at hres with hu
      · have hr2 : r = ⟨true, (stF.res.map resid_valid).count true,
            stF.pos, stF.res, true⟩ := (Option.some.inj hres).symm
        have hloc : StepLocal (rbStep sq svd (cl.map MkrData.pos)
            (clValidMask tgt.res.length cl)
            (whereTrue (andMask (clValidMask tgt.res.length cl) (validMask tgt)))) :=
          stepLocal_of_cases _ (rbStep_cases sq svd _ _ _)
        by_cases hmem : f ∈ whereTrue (andMask (clValidMask tgt.res.length cl)
            (notMask (validMask tgt)))
        · have hstep_inv : ∀ st fr st2,
              fr ∈ whereTrue (andMask (clValidMask tgt.res.length cl)
                (notMask (validMask tgt))) →
              FillInv tgt (validMask tgt) st →
              rbStep sq svd (cl.map MkrData.pos) (clValidMask tgt.res.length cl)
                (whereTrue (andMask (clValidMask tgt.res.length cl)
                  (validMask tgt))) st fr = some st2 →
              FillInv tgt (validMask tgt) st2 := by
            intro st fr st2 hm hI he
            obtain ⟨hma, hmb, hmva, hmvb⟩ := mem_whereTrue_andMask hm
            rw [length_notMask] at hmb
            rw [getD_notMask _ _ hmb] at hmvb
            have hfrv : (validMask tgt).getD fr false = false := by
              cases hbv : (validMask tgt).getD fr false
              · rfl
              · rw [hbv] at hmvb; cases hmvb
            exact fillInv_step _ (rbStep_cases sq svd _ _ _) tgt st fr st2 hfrv hI he
          obtain ⟨hfa, hfb, hfva, hfvb⟩ := mem_whereTrue_andMask hmem
          rw [length_notMask] at hfb
          rw [getD_notMask _ _ hfb] at hfvb
          obtain ⟨stA, stB, hPA, hstepA, hposeq, hreseq, _, e4, e5⟩ :=
            foldlM_value _ hloc (FillInv tgt (validMask tgt)) _
              (whereTrue_nodup _) hstep_inv f hmem _ stF hf
              ⟨rfl, rfl, fun _ => Or.inl ⟨rfl, rfl⟩⟩
          by_cases hsame : stB = stA
          · exfalso
            apply hrep
            rw [hr2]
            simp only
            rw [hreseq, hsame, e5]
          · obtain ⟨f0, f1, hm0, hm1, hbl, hbr, hcons, hspanv, hstB⟩ :=
              rbStep_write_analysis sq svd (cl.map MkrData.pos)
                (clValidMask tgt.res.length cl)
                (whereTrue (andMask (clValidMask tgt.res.length cl) (validMask tgt)))
                stA f stB (whereTrue_pairwise _) hstepA
                (by intro hcc; exact hsame hcc)
            have hfn : f < tgt.res.length := by
              rw [length_validMask] at hfb
              exact hfb
            have hfresl : f < stA.res.length := by
              rw [hPA.2.1]
              exact hfn
            have hfposl : f < stA.pos.length := by
              rw [hPA.1, hlp]
              exact hfn
            obtain ⟨_, _, hv0a, hv0b⟩ := mem_whereTrue_andMask hm0
            obtain ⟨_, _, hv1a, hv1b⟩ := mem_whereTrue_andMask hm1
            have hA0 : stA.pos.getD f0 vzero = tgt.pos.getD f0 vzero := by
              rcases hPA.2.2 f0 with ⟨a, _⟩ | ⟨a, _⟩
              · exact a
              · rw [hv0b] at a; cases a
            have hA1 : stA.pos.getD f1 vzero = tgt.pos.getD f1 vzero := by
              rcases hPA.2.2 f1 with ⟨a, _⟩ | ⟨a, _⟩
              · exact a
              · rw [hv1b] at a; cases a
            refine ⟨f0, f1, hm0, hm1, hbl, hbr, hcons, hspanv, ?_, ?_⟩
            · rw [hr2]
              simp only
              rw [hreseq, hstB]
              simp only
              exact getD_set_self _ _ _ _ hfresl
            · rw [hr2]
              simp only
              rw [hposeq, hstB]
              simp only
              rw [getD_set_self _ _ _ _ hfposl, hA0, hA1]
        · exfalso
          apply hrep
          rw [hr2]
          simp only
          obtain ⟨_, b, _, _⟩ :=
            foldlM_local_untouched _ hloc _ _ stF hf f hmem
          exact b
      · rw [← Option.some.inj hres] at hrep
        exact absurd rfl hrep

/-- C4: in `fill_marker_gap_interp`, a gap (maximal run of invalid frames)
containing frame `0` or frame `N-1` is never repaired, for every spline
degree, search-span offset and minimum candidate count; for every other
gap the candidate frames are exactly the valid frames within
`ceil(gap-size/2) + offset` frames before the gap's start and after its
end (clipped to the trajectory), and the gap is also left unrepaired when
fewer than `min_needed_frs` such frames exist. -/
theorem c4_interp_boundary_window (spline : ℕ → List ℕ → List ℚ → ℕ → ℚ)
    (tgt : MkrData) (k soff minfrs : ℕ) (gap : List ℕ) (f : ℕ)
    (hgap : gap ∈ splitRuns (whereTrue (notMask (validMask tgt))))
    (hf : f ∈ gap) :
    ((0 ∈ gap ∨ tgt.res.length - 1 ∈ gap) →
      (fill_marker_gap_interp spline tgt k soff minfrs).pos.getD f vzero =
        tgt.pos.getD f vzero ∧
      (fill_marker_gap_interp spline tgt k soff minfrs).res.getD f 0 =
        tgt.res.getD f 0) ∧
    (whereTrue (gapCand soff tgt.res.length (validMask tgt) gap) =
      (List.range tgt.res.length).filter (fun i =>
        decide ((validMask tgt).getD i false = true ∧
          (gap.foldl Nat.min (gap.headD 0) - ((gap.length + 1) / 2 + soff) ≤ i ∧
            i < gap.foldl Nat.min (gap.headD 0) ∨
          gap.foldl Nat.max 0 < i ∧
            i ≤ gap.foldl Nat.max 0 + ((gap.length + 1) / 2 + soff))))) ∧
    ((whereTrue (gapCand soff tgt.res.length (validMask tgt) gap)).length <
        minfrs →
      (fill_marker_gap_interp spline tgt k soff minfrs).pos.getD f vzero =
        tgt.pos.getD f vzero ∧
      (fill_marker_gap_interp spline tgt k soff minfrs).res.getD f 0 =
        tgt.res.getD f 0) := by
  have hne : gap ≠ [] := by
    intro he
    rw [he] at hf
    exact List.not_mem_nil f hf
  have hfinv : f ∈ whereTrue (notMask (validMask tgt)) :=
    mem_of_mem_splitRuns hgap hf
  have hnd : (whereTrue (notMask (validMask tgt))).Nodup := whereTrue_nodup _
  have hpw := splitRuns_pairwise_disjoint hnd
  have hbound : ∀ x ∈ gap, x < tgt.res.length := by
    intro x hx
    have hxm := mem_of_mem_splitRuns hgap hx
    obtain ⟨hxl, _⟩ := mem_whereTrue.mp hxm
    rw [length_notMask, length_validMask] at hxl
    exact hxl
  -- generic final-state-at-f reduction
  have main : ∀ (hsk : ∀ st, gapStep spline k soff minfrs tgt.res.length
        (validMask tgt) st gap = st),
      (fill_marker_gap_interp spline tgt k soff minfrs).pos.getD f vzero =
        tgt.pos.getD f vzero ∧
      (fill_marker_gap_interp spline tgt k soff minfrs).res.getD f 0 =
        tgt.res.getD f 0 := by
    intro hsk
    simp only [fill_marker_gap_interp]
    split_ifs with hdeg hu
    · exact ⟨rfl, rfl⟩
    · obtain ⟨stA, _, h2, h3, h4, h5, _⟩ :=
        foldl_gaps_value (gapStep spline k soff minfrs tgt.res.length
            (validMask tgt))
          (fun st g fr hfr => gapStep_untouched spline k soff minfrs _ _ st g fr hfr)
          (fun st g => gapStep_upd spline k soff minfrs _ _ st g)
          (fun _ => True) (splitRuns (whereTrue (notMask (validMask tgt))))
          (fun _ _ _ _ => trivial) hpw gap hgap f hf
          ⟨tgt.pos, tgt.res, false⟩ trivial
      rw [hsk stA] at h4 h5
      exact ⟨h4.trans h2, h5.trans h3⟩
    · exact ⟨rfl, rfl⟩
  refine ⟨?_, ?_, ?_⟩
  · intro hb
    refine main (fun st => gapStep_skip _ _ _ _ _ _ st gap ?_)
    rcases hb with hb | hb
    · refine Or.inr (Or.inl ?_)
      have := (gapMin_spec gap hne).2 0 hb
      omega
    · refine Or.inr (Or.inr (Or.inl ?_))
      have h1 := (gapMax_spec gap hne).2 _ hb
      have h2 := hbound _ (gapMax_spec gap hne).1
      omega
  · -- candidate window characterization
    have hlen : (gapCand soff tgt.res.length (validMask tgt) gap).length =
        tgt.res.length := by
      rw [gapCand, andMask, List.length_zipWith, markUp_length, markDown_length,
        List.length_replicate, length_validMask]
      omega
    rw [whereTrue, hlen]
    refine List.filter_congr ?_
    intro i hi
    rw [List.mem_range] at hi
    have hi1 : i < (markUp (gap.foldl Nat.max 0) tgt.res.length
        ((gap.length + 1) / 2 + soff)
        (markDown (gap.foldl Nat.min (gap.headD 0)) ((gap.length + 1) / 2 + soff)
          (List.replicate tgt.res.length false))).length := by
      rw [markUp_length, markDown_length, List.length_replicate]
      exact hi
    have hi2 : i < (validMask tgt).length := by
      rw [length_validMask]
      exact hi
    rw [gapCand, getD_andMask _ _ i hi1 hi2]
    rw [markUp_getD _ _ _ _ i (by
      rw [markDown_length, List.length_replicate]
      exact hi)]
    rw [markDown_getD _ _ _ i (by rw [List.length_replicate]; exact hi)]
    have hrep : (List.replicate tgt.res.length false).getD i false = false := by
      rw [List.getD_eq_getD_get?, List.get?_eq_getElem?]
      rw [List.getElem?_getD_replicate_default_eq]
    rw [hrep]
    by_cases hA : gap.foldl Nat.min (gap.headD 0) -
        ((gap.length + 1) / 2 + soff) ≤ i ∧ i < gap.foldl Nat.min (gap.headD 0)
    · by_cases hB : gap.foldl Nat.max 0 < i ∧
          i ≤ gap.foldl Nat.max 0 + ((gap.length + 1) / 2 + soff) ∧
          i < tgt.res.length
      · cases htm : (validMask tgt).getD i false <;>
          simp [hA, hB, htm, hi] <;> try rw [Bool.or_comm]
      · cases htm : (validMask tgt).getD i false <;>
          simp [hA, hB, htm, hi] <;> try rw [Bool.or_comm]
    · by_cases hB : gap.foldl Nat.max 0 < i ∧
          i ≤ gap.foldl Nat.max 0 + ((gap.length + 1) / 2 + soff) ∧
          i < tgt.res.length
      · cases htm : (validMask tgt).getD i false <;>
          simp [hA, hB, htm, hi] <;> try rw [Bool.or_comm]
      · have hB2 : ¬ (gap.foldl Nat.max 0 < i ∧
            i ≤ gap.foldl Nat.max 0 + ((gap.length + 1) / 2 + soff)) := by
          intro hc
          exact hB ⟨hc.1, hc.2, hi⟩
        cases htm : (validMask tgt).getD i false <;>
          simp [hA, hB, hB2, htm, hi] <;> try rw [Bool.or_comm]
  · intro hcnt
    refine main (fun st => gapStep_skip _ _ _ _ _ _ st gap ?_)
    refine Or.inr (Or.inr (Or.inr ?_))
    rw [count_true_eq_length_whereTrue]
    exact hcnt

/-- C10: within one `fill_marker_gap_interp` invocation the validity mask
is fixed at entry: every candidate frame of a repaired gap is valid in the
original input, and the values handed to the spline oracle are the
original input coordinates at those frames — even when earlier gaps were
repaired first in the same invocation. -/
theorem c10_interp_entry_mask (spline : ℕ → List ℕ → List ℚ → ℕ → ℚ)
    (tgt : MkrData) (k soff minfrs : ℕ) (gap : List ℕ) (f : ℕ)
    (hlp : tgt.pos.length = tgt.res.length)
    (hnv0 : (validMask tgt).count true ≠ 0)
    (hnvn : (validMask tgt).count true ≠ tgt.res.length)
    (hgap : gap ∈ splitRuns (whereTrue (notMask (validMask tgt))))
    (hf : f ∈ gap)
    (hb0 : 0 ∉ gap) (hb1 : tgt.res.length - 1 ∉ gap)
    (hcnt : ¬ (gapCand soff tgt.res.length (validMask tgt) gap).count true
      < minfrs) :
    (∀ j ∈ whereTrue (gapCand soff tgt.res.length (validMask tgt) gap),
      (validMask tgt).getD j false = true) ∧
    (fill_marker_gap_interp spline tgt k soff minfrs).updated = true ∧
    (fill_marker_gap_interp spline tgt k soff minfrs).res.getD f 0 = 0 ∧
    (fill_marker_gap_interp spline tgt k soff minfrs).pos.getD f vzero =
      (spline k (whereTrue (gapCand soff tgt.res.length (validMask tgt) gap))
        ((whereTrue (gapCand soff tgt.res.length (validMask tgt) gap)).map
          (fun j => (tgt.pos.getD j vzero).1)) f,
       spline k (whereTrue (gapCand soff tgt.res.length (validMask tgt) gap))
        ((whereTrue (gapCand soff tgt.res.length (validMask tgt) gap)).map
          (fun j => (tgt.pos.getD j vzero).2.1)) f,
       spline k (whereTrue (gapCand soff tgt.res.length (validMask tgt) gap))
        ((whereTrue (gapCand soff tgt.res.length (validMask tgt) gap)).map
          (fun j => (tgt.pos.getD j vzero).2.2)) f) := by
  have hne : gap ≠ [] := by
    intro he
    rw [he] at hf
    exact List.not_mem_nil f hf
  have hnd : (whereTrue (notMask (validMask tgt))).Nodup := whereTrue_nodup _
  have hpw := splitRuns_pairwise_disjoint hnd
  have hinvgap : ∀ x ∈ gap, (validMask tgt).getD x false = false := by
    intro x hx
    have hxm := mem_of_mem_splitRuns hgap hx
    obtain ⟨hxl, hxv⟩ := mem_whereTrue.mp hxm
    rw [length_notMask] at hxl
    rw [getD_notMask _ _ hxl] at hxv
    cases hbb : (validMask tgt).getD x false
    · rfl
    · rw [hbb] at hxv; cases hxv
  have hbound : ∀ x ∈ gap, x < tgt.res.length := by
    intro x hx
    have hxm := mem_of_mem_splitRuns hgap hx
    obtain ⟨hxl, _⟩ := mem_whereTrue.mp hxm
    rw [length_notMask, length_validMask] at hxl
    exact hxl
  have hcf : ∀ j ∈ whereTrue (gapCand soff tgt.res.length (validMask tgt) gap),
      (validMask tgt).getD j false = true := by
    intro j hj
    exact (mem_whereTrue_andMask (by rw [gapCand] at hj; exact hj)).2.2.2
  have hg0 : gap.foldl Nat.min (gap.headD 0) ≠ 0 := by
    intro he
    exact hb0 (he ▸ (gapMin_spec gap hne).1)
  have hg1 : gap.foldl Nat.max 0 ≠ tgt.res.length - 1 := by
    intro he
    exact hb1 (he ▸ (gapMax_spec gap hne).1)
  have hgne : gap.isEmpty = false := by
    cases gap
    · exact absurd rfl hne
    · rfl
  -- run the gap loop
  obtain ⟨stA, hPA, _, _, h4, h5, h6⟩ :=
    foldl_gaps_value (gapStep spline k soff minfrs tgt.res.length (validMask tgt))
      (fun st g fr hfr => gapStep_untouched spline k soff minfrs _ _ st g fr hfr)
      (fun st g => gapStep_upd spline k soff minfrs _ _ st g)
      (FillInv tgt (validMask tgt)) (splitRuns (whereTrue (notMask (validMask tgt))))
      (fun st g hgm hI => by
        refine gapStep_fillInv spline k soff minfrs tgt st g ?_ hI
        intro x hx
        have hxm := mem_of_mem_splitRuns hgm hx
        obtain ⟨hxl, hxv⟩ := mem_whereTrue.mp hxm
        rw [length_notMask] at hxl
        rw [getD_notMask _ _ hxl] at hxv
        cases hbb : (validMask tgt).getD x false
        · rfl
        · rw [hbb] at hxv; cases hxv)
      hpw gap hgap f hf ⟨tgt.pos, tgt.res, false⟩
      ⟨rfl, rfl, fun _ => Or.inl ⟨rfl, rfl⟩⟩
  have hwrite := gapStep_write_eq spline k soff minfrs tgt.res.length
    (validMask tgt) stA gap hgne hg0 hg1 hcnt
  have hflt : f < stA.pos.length := by
    rw [hPA.1, hlp]
    exact hbound f hf
  have hfrt : f < stA.res.length := by
    rw [hPA.2.1]
    exact hbound f hf
  have hvals := writeFold_value
    (fun fr =>
      (spline k (whereTrue (gapCand soff tgt.res.length (validMask tgt) gap))
        ((whereTrue (gapCand soff tgt.res.length (validMask tgt) gap)).map
          (fun j => (stA.pos.getD j vzero).1)) fr,
      spline k (whereTrue (gapCand soff tgt.res.length (validMask tgt) gap))
        ((whereTrue (gapCand soff tgt.res.length (validMask tgt) gap)).map
          (fun j => (stA.pos.getD j vzero).2.1)) fr,
      spline k (whereTrue (gapCand soff tgt.res.length (validMask tgt) gap))
        ((whereTrue (gapCand soff tgt.res.length (validMask tgt) gap)).map
          (fun j => (stA.pos.getD j vzero).2.2)) fr))
    gap stA f hf hflt hfrt
  have hmapx : ∀ p : Vec3 → ℚ,
      (whereTrue (gapCand soff tgt.res.length (validMask tgt) gap)).map
        (fun j => p (stA.pos.getD j vzero)) =
      (whereTrue (gapCand soff tgt.res.length (validMask tgt) gap)).map
        (fun j => p (tgt.pos.getD j vzero)) := by
    intro p
    refine List.map_congr_left ?_
    intro j hj
    have hjv := hcf j hj
    rcases hPA.2.2 j with ⟨a, _⟩ | ⟨a, _⟩
    · rw [a]
    · rw [hjv] at a; cases a
  have hstep_pos : (gapStep spline k soff minfrs tgt.res.length (validMask tgt)
      stA gap).pos.getD f vzero =
      (spline k (whereTrue (gapCand soff tgt.res.length (validMask tgt) gap))
        ((whereTrue (gapCand soff tgt.res.length (validMask tgt) gap)).map
          (fun j => (tgt.pos.getD j vzero).1)) f,
       spline k (whereTrue (gapCand soff tgt.res.length (validMask tgt) gap))
        ((whereTrue (gapCand soff tgt.res.length (validMask tgt) gap)).map
          (fun j => (tgt.pos.getD j vzero).2.1)) f,
       spline k (whereTrue (gapCand soff tgt.res.length (validMask tgt) gap))
        ((whereTrue (gapCand soff tgt.res.length (validMask tgt) gap)).map
          (fun j => (tgt.pos.getD j vzero).2.2)) f) := by
    rw [hwrite]
    simp only
    rw [hvals.1]
    rw [hmapx (fun v => v.1), hmapx (fun v => v.2.1), hmapx (fun v => v.2.2)]
  have hstep_res : (gapStep spline k soff minfrs tgt.res.length (validMask tgt)
      stA gap).res.getD f 0 = 0 := by
    rw [hwrite]
    simp only
    exact hvals.2
  have hstep_upd : (gapStep spline k soff minfrs tgt.res.length (validMask tgt)
      stA gap).upd = true := by
    rw [hwrite]
  refine ⟨hcf, ?_, ?_, ?_⟩
  · simp only [fill_marker_gap_interp]
    rw [if_neg (by rintro (hc | hc); exact hnv0 hc; exact hnvn hc)]
    rw [if_pos (h6 hstep_upd)]
  · simp only [fill_marker_gap_interp]
    rw [if_neg (by rintro (hc | hc); exact hnv0 hc; exact hnvn hc)]
    rw [if_pos (h6 hstep_upd)]
    simp only
    rw [h5, hstep_res]
  · simp only [fill_marker_gap_interp]
    rw [if_neg (by rintro (hc | hc); exact hnv0 hc; exact hnvn hc)]
    rw [if_pos (h6 hstep_upd)]
    simp only
    rw [h4, hstep_pos]

/-- Witness for C6 on a concrete three-frame trajectory with a single
fully-valid cluster marker and the gap at frame 1, which gets repaired. -/
theorem c6_rigidbody_fill_bracketed_witness :
    ∃ f0 f1,
      f0 ∈ whereTrue (andMask
        (clValidMask (⟨[(0, 0, 0), (9, 9, 9), (2, 0, 0)], [0, -1, 0]⟩ : MkrData).res.length
          [⟨[(5, 5, 5), (5, 5, 5), (5, 5, 5)], [0, 0, 0]⟩])
        (validMask ⟨[(0, 0, 0), (9, 9, 9), (2, 0, 0)], [0, -1, 0]⟩)) ∧
      f1 ∈ whereTrue (andMask
        (clValidMask (⟨[(0, 0, 0), (9, 9, 9), (2, 0, 0)], [0, -1, 0]⟩ : MkrData).res.length
          [⟨[(5, 5, 5), (5, 5, 5), (5, 5, 5)], [0, 0, 0]⟩])
        (validMask ⟨[(0, 0, 0), (9, 9, 9), (2, 0, 0)], [0, -1, 0]⟩)) ∧
      f0 < 1 ∧ 1 < f1 ∧
      (∀ g ∈ whereTrue (andMask
        (clValidMask (⟨[(0, 0, 0), (9, 9, 9), (2, 0, 0)], [0, -1, 0]⟩ : MkrData).res.length
          [⟨[(5, 5, 5), (5, 5, 5), (5, 5, 5)], [0, 0, 0]⟩])
        (validMask ⟨[(0, 0, 0), (9, 9, 9), (2, 0, 0)], [0, -1, 0]⟩)),
        g ≤ f0 ∨ f1 ≤ g) ∧
      (∀ g, f0 ≤ g → g ≤ f1 →
        (clValidMask (⟨[(0, 0, 0), (9, 9, 9), (2, 0, 0)], [0, -1, 0]⟩ : MkrData).res.length
          [⟨[(5, 5, 5), (5, 5, 5), (5, 5, 5)], [0, 0, 0]⟩]).getD g false = true) ∧
      (⟨true, 3, [(0, 0, 0), (1, 0, 0), (2, 0, 0)], [0, 0, 0], true⟩ :
        StratResult).res.getD 1 0 = 0 ∧
      (⟨true, 3, [(0, 0, 0), (1, 0, 0), (2, 0, 0)], [0, 0, 0], true⟩ :
        StratResult).pos.getD 1 vzero =
        vadd (vsmul (((1 : ℚ) - (f0 : ℚ)) / ((f1 : ℚ) - (f0 : ℚ)))
          (vsub (rbPred ratSqrt (fun _ => (midty, midty))
              ([⟨[(5, 5, 5), (5, 5, 5), (5, 5, 5)], [0, 0, 0]⟩].map MkrData.pos) f1 1
              ((⟨[(0, 0, 0), (9, 9, 9), (2, 0, 0)], [0, -1, 0]⟩ : MkrData).pos.getD f1 vzero))
            (rbPred ratSqrt (fun _ => (midty, midty))
              ([⟨[(5, 5, 5), (5, 5, 5), (5, 5, 5)], [0, 0, 0]⟩].map MkrData.pos) f0 1
              ((⟨[(0, 0, 0), (9, 9, 9), (2, 0, 0)], [0, -1, 0]⟩ : MkrData).pos.getD f0 vzero))))
          (rbPred ratSqrt (fun _ => (midty, midty))
            ([⟨[(5, 5, 5), (5, 5, 5), (5, 5, 5)], [0, 0, 0]⟩].map MkrData.pos) f0 1
            ((⟨[(0, 0, 0), (9, 9, 9), (2, 0, 0)], [0, -1, 0]⟩ : MkrData).pos.getD f0 vzero)) :=
  c6_rigidbody_fill_bracketed ratSqrt (fun _ => (midty, midty))
    ⟨[(0, 0, 0), (9, 9, 9), (2, 0, 0)], [0, -1, 0]⟩
    [⟨[(5, 5, 5), (5, 5, 5), (5, 5, 5)], [0, 0, 0]⟩] 1
    ⟨true, 3, [(0, 0, 0), (1, 0, 0), (2, 0, 0)], [0, 0, 0], true⟩
    rfl (by with_unfolding_all rfl) (by norm_num)

/-- Witness for C3 on a concrete three-frame trajectory with the gap at
frame 1 bracketed by frames 0 and 2. -/
theorem c3_pattern_fill_formula_witness :
    ∃ r, fill_marker_gap_pattern wTgt3 wDnr3 = some r ∧ r.updated = true ∧
      r.pos.getD 1 vzero =
        vadd (vsub (linInterp wTgt3.pos 0 2 1) (linInterp wDnr3.pos 0 2 1))
          (wDnr3.pos.getD 1 vzero) ∧
      (∀ c : Vec3, vsub (wTgt3.pos.getD 0 vzero) (wDnr3.pos.getD 0 vzero) = c →
        vsub (wTgt3.pos.getD 2 vzero) (wDnr3.pos.getD 2 vzero) = c →
        r.pos.getD 1 vzero = vadd (wDnr3.pos.getD 1 vzero) c) := by
  have he : whereTrue (andMask (validMask wTgt3) (validMask wDnr3)) = [0, 2] := by
    with_unfolding_all rfl
  have hcnt : (validMask wTgt3).count true = 2 := by with_unfolding_all rfl
  refine c3_pattern_fill_formula wTgt3 wDnr3 1 0 2 rfl ?_ ?_ ?_ (by decide) ?_
    ?_ ?_ (by decide) (by decide) ?_ ?_
  · rw [hcnt]; omega
  · rw [hcnt]; intro h; simp [wTgt3] at h
  · rw [he]; decide
  · with_unfolding_all rfl
  · rw [he]; decide
  · rw [he]; decide
  · rw [he]; decide
  · intro g hg0 hg1
    interval_cases g <;> with_unfolding_all rfl

/-- Witness for C4: on the five-frame fixture the gap `[0]` touches
frame 0, so frame 0 stays unchanged for this concrete spline oracle and
window configuration. -/
theorem c4_interp_boundary_window_witness :
    (fill_marker_gap_interp (fun _ _ _ _ => 0) wItp 3 5 10).pos.getD 0 vzero =
      wItp.pos.getD 0 vzero ∧
    (fill_marker_gap_interp (fun _ _ _ _ => 0) wItp 3 5 10).res.getD 0 0 =
      wItp.res.getD 0 0 := by
  have he : splitRuns (whereTrue (notMask (validMask wItp))) =
      [[0], [2], [4]] := by
    with_unfolding_all rfl
  exact (c4_interp_boundary_window (fun _ _ _ _ => 0) wItp 3 5 10 [0] 0
    (by rw [he]; exact List.mem_cons_self _ _) (List.mem_cons_self 0 [])).1
    (Or.inl (List.mem_cons_self 0 []))

theorem getD_andMask_true {a b : List Bool} {i : ℕ}
    (h : (andMask a b).getD i false = true) :
    a.getD i false = true ∧ b.getD i false = true := by
  by_cases hi : i < (andMask a b).length
  · rw [andMask, List.length_zipWith] at hi
    have ha : i < a.length := by omega
    have hb : i < b.length := by omega
    rw [getD_andMask a b i ha hb, Bool.and_eq_true] at h
    exact h
  · rw [List.getD_eq_default _ _ (by omega)] at h
    cases h

theorem getD_notMask_true {m : List Bool} {i : ℕ}
    (h : (notMask m).getD i false = true) : m.getD i false = false := by
  by_cases hi : i < m.length
  · rw [getD_notMask m i hi] at h
    cases hm : m.getD i false
    · rfl
    · rw [hm] at h
      cases h
  · rw [List.getD_eq_default _ _ (by rw [length_notMask]; omega)] at h
    cases h

theorem getD_mapIdx {α : Type _} (l : List α) (f : ℕ → α → α) (g : ℕ) (d : α)
    (h : g < l.length) :
    (l.mapIdx f).getD g d = f g (l.getD g d) := by
  rw [List.getD_eq_getElem _ _ (by rw [List.length_mapIdx]; exact h),
    List.getD_eq_getElem _ _ h]
  simp [List.getElem_mapIdx]

/-- Shared shape of the two recovery strategies' success result: the
masked `mapIdx` rewrite touches exactly the frames where the whole
cluster is valid and the target is not. -/
theorem frameEffects_mapIdx (tgt : MkrData) (clMask : List Bool)
    (w : ℕ → Vec3) (u1 u2 : Bool) (cnt : ℕ) :
    FrameEffects tgt ⟨u1, cnt,
      tgt.pos.mapIdx (fun f p =>
        if (andMask clMask (notMask (validMask tgt))).getD f false then w f
        else p),
      tgt.res.mapIdx (fun f r =>
        if (andMask clMask (notMask (validMask tgt))).getD f false then 0
        else r),
      u2⟩ := by
  intro g
  by_cases hg : (andMask clMask (notMask (validMask tgt))).getD g false = true
  · refine Or.inr ⟨getD_notMask_true (getD_andMask_true hg).2, ?_⟩
    have hlt : g < tgt.res.length := by
      have h2 := (getD_andMask_true hg).2
      by_contra hge
      rw [List.getD_eq_default _ _
        (by rw [length_notMask, length_validMask]; omega)] at h2
      cases h2
    show (tgt.res.mapIdx _).getD g 0 = 0
    rw [getD_mapIdx _ _ _ _ hlt, if_pos hg]
  · refine Or.inl ⟨?_, ?_⟩
    · show (tgt.pos.mapIdx _).getD g vzero = _
      by_cases hlt : g < tgt.pos.length
      · rw [getD_mapIdx _ _ _ _ hlt, if_neg hg]
      · rw [List.getD_eq_default _ _ (by rw [List.length_mapIdx]; omega),
          List.getD_eq_default _ _ (by omega)]
    · show (tgt.res.mapIdx _).getD g 0 = _
      by_cases hlt : g < tgt.res.length
      · rw [getD_mapIdx _ _ _ _ hlt, if_neg hg]
      · rw [List.getD_eq_default _ _ (by rw [List.length_mapIdx]; omega),
          List.getD_eq_default _ _ (by omega)]

theorem foldl_gaps_inv (step : LoopSt → List ℕ → LoopSt) (P : LoopSt → Prop) :
    ∀ (gaps : List (List ℕ)),
      (∀ st g, g ∈ gaps → P st → P (step st g)) →
      ∀ st, P st → P (gaps.foldl step st)
  | [], _, _, hP => hP
  | g :: t, hstep, st, hP =>
    foldl_gaps_inv step P t
      (fun st g2 hg2 => hstep st g2 (List.mem_cons_of_mem _ hg2))
      (step st g) (hstep st g (List.mem_cons_self g t) hP)

/-- C9: whichever of the five strategies runs, the per-frame contract
holds: residual `0` counts as valid, frames valid at entry keep their
position and residual, repaired frames were invalid at entry and get
residual exactly `0`, and unrepaired invalid frames keep their original
residual (they stay invalid). -/
theorem c9_frame_effects (sq : ℚ → ℚ) (svd : Mat3 → Mat3 × Mat3)
    (spline : ℕ → List ℕ → List ℚ → ℕ → ℚ)
    (tgt dnr : MkrData) (cl : List MkrData) (k soff minfrs : ℕ) :
    resid_valid 0 = true ∧
    FrameEffects tgt (recover_marker_relative sq tgt cl) ∧
    FrameEffects tgt (recover_marker_rigidbody sq tgt cl) ∧
    (∀ r, fill_marker_gap_rigidbody sq svd tgt cl = some r →
      FrameEffects tgt r) ∧
    (∀ r, fill_marker_gap_pattern tgt dnr = some r → FrameEffects tgt r) ∧
    FrameEffects tgt (fill_marker_gap_interp spline tgt k soff minfrs) := by
  refine ⟨by with_unfolding_all rfl, ?_, ?_, ?_, ?_, ?_⟩
  · unfold recover_marker_relative
    dsimp only
    split_ifs
    all_goals try exact fun g => Or.inl ⟨rfl, rfl⟩
    exact frameEffects_mapIdx tgt (clValidMask tgt.res.length cl) _ _ _ _
  · unfold recover_marker_rigidbody
    dsimp only
    split_ifs
    all_goals try exact fun g => Or.inl ⟨rfl, rfl⟩
    exact frameEffects_mapIdx tgt (clValidMask tgt.res.length cl) _ _ _ _
  · intro r hr
    unfold fill_marker_gap_rigidbody at hr
    dsimp only at hr
    split_ifs at hr
    all_goals try (cases Option.some.inj hr; exact fun g => Or.inl ⟨rfl, rfl⟩)
    cases hf : List.foldlM
        (rbStep sq svd (cl.map MkrData.pos) (clValidMask tgt.res.length cl)
          (whereTrue (andMask (clValidMask tgt.res.length cl)
            (validMask tgt))))
        ⟨tgt.pos, tgt.res, false⟩
        (whereTrue (andMask (clValidMask tgt.res.length cl)
          (notMask (validMask tgt)))) with
    | none => rw [hf] at hr; cases hr
    | some st =>
      rw [hf] at hr
      have hInv : FillInv tgt (validMask tgt) st := by
        refine foldlM_inv _ (FillInv tgt (validMask tgt)) _ ?_ _ _ hf
          ⟨rfl, rfl, fun g => Or.inl ⟨rfl, rfl⟩⟩
        intro st0 fr st2 hm hP hstep
        refine fillInv_step _
          (rbStep_cases sq svd (cl.map MkrData.pos)
            (clValidMask tgt.res.length cl)
            (whereTrue (andMask (clValidMask tgt.res.length cl)
              (validMask tgt))))
          tgt st0 fr st2 ?_ hP hstep
        exact getD_notMask_true
          (getD_andMask_true (mem_whereTrue.mp hm).2).2
      dsimp only at hr
      split_ifs at hr
      all_goals cases Option.some.inj hr
      all_goals first
        | exact fun g => hInv.2.2 g
        | exact fun g => Or.inl ⟨rfl, rfl⟩
  · intro r hr
    unfold fill_marker_gap_pattern at hr
    dsimp only at hr
    split_ifs at hr
    all_goals try (cases Option.some.inj hr; exact fun g => Or.inl ⟨rfl, rfl⟩)
    cases hf : List.foldlM
        (patternStep dnr.pos (validMask dnr)
          (whereTrue (andMask (validMask tgt) (validMask dnr))))
        ⟨tgt.pos, tgt.res, false⟩
        (whereTrue (notMask (validMask tgt))) with
    | none => rw [hf] at hr; cases hr
    | some st =>
      rw [hf] at hr
      have hInv : FillInv tgt (validMask tgt) st := by
        refine foldlM_inv _ (FillInv tgt (validMask tgt)) _ ?_ _ _ hf
          ⟨rfl, rfl, fun g => Or.inl ⟨rfl, rfl⟩⟩
        intro st0 fr st2 hm hP hstep
        refine fillInv_step _
          (patternStep_cases dnr.pos (validMask dnr)
            (whereTrue (andMask (validMask tgt) (validMask dnr))))
          tgt st0 fr st2 ?_ hP hstep
        exact getD_notMask_true (mem_whereTrue.mp hm).2
      dsimp only at hr
      split_ifs at hr
      all_goals cases Option.some.inj hr
      all_goals first
        | exact fun g => hInv.2.2 g
        | exact fun g => Or.inl ⟨rfl, rfl⟩
  · have hInv := foldl_gaps_inv
      (gapStep spline k soff minfrs tgt.res.length (validMask tgt))
      (FillInv tgt (validMask tgt))
      (splitRuns (whereTrue (notMask (validMask tgt))))
      (fun st g hg hP => gapStep_fillInv spline k soff minfrs tgt st g
        (fun f hf => getD_notMask_true
          (mem_whereTrue.mp (mem_of_mem_splitRuns hg hf)).2) hP)
      ⟨tgt.pos, tgt.res, false⟩ ⟨rfl, rfl, fun g => Or.inl ⟨rfl, rfl⟩⟩
    unfold fill_marker_gap_interp
    dsimp only
    split_ifs
    all_goals first
      | exact fun g => Or.inl ⟨rfl, rfl⟩
      | exact fun g => hInv.2.2 g

/-- Witness for C9: concrete invocations of all five strategies on the
all-valid three-frame fixture (degenerate no-ops) and the interpolation
fixture (an actual repair). -/
theorem c9_frame_effects_witness :
    fill_marker_gap_rigidbody (fun q => q) (fun m => (m, m)) wDnr3 [] =
      some ⟨false, 3, wDnr3.pos, wDnr3.res, false⟩ ∧
    fill_marker_gap_pattern wDnr3 wDnr3 =
      some ⟨false, 3, wDnr3.pos, wDnr3.res, false⟩ ∧
    FrameEffects wDnr3 (recover_marker_relative (fun q => q) wDnr3 []) ∧
    FrameEffects wDnr3 (recover_marker_rigidbody (fun q => q) wDnr3 []) ∧
    FrameEffects wDnr3 ⟨false, 3, wDnr3.pos, wDnr3.res, false⟩ ∧
    FrameEffects wItp2 (fill_marker_gap_interp splW wItp2 3 0 1) := by
  have h := c9_frame_effects (fun q => q) (fun m => (m, m)) splW wDnr3 wDnr3
    [] 3 0 1
  have h2 := c9_frame_effects (fun q => q) (fun m => (m, m)) splW wItp2 wDnr3
    [] 3 0 1
  have hrb : fill_marker_gap_rigidbody (fun q => q) (fun m => (m, m))
      wDnr3 [] = some ⟨false, 3, wDnr3.pos, wDnr3.res, false⟩ := by
    with_unfolding_all rfl
  have hpt : fill_marker_gap_pattern wDnr3 wDnr3 =
      some ⟨false, 3, wDnr3.pos, wDnr3.res, false⟩ := by
    with_unfolding_all rfl
  exact ⟨hrb, hpt, h.2.1, h.2.2.1, h.2.2.2.2.1 _ hpt, h2.2.2.2.2.2⟩

/-- Witness for C10: on the four-frame fixture the interior gap `[1]` is
repaired from entry-valid candidate frames 0 and 2, and the written
position is the oracle value over the original coordinates. -/
theorem c10_interp_entry_mask_witness :
    (fill_marker_gap_interp splW wItp2 3 0 1).updated = true ∧
    (fill_marker_gap_interp splW wItp2 3 0 1).res.getD 1 0 = 0 ∧
    (fill_marker_gap_interp splW wItp2 3 0 1).pos.getD 1 vzero = (3, 1, 1) := by
  have hm : validMask wItp2 = [true, false, true, true] := by
    with_unfolding_all rfl
  have h := c10_interp_entry_mask splW wItp2 3 0 1 [1] 1 rfl
    (by rw [hm]; decide)
    (by rw [hm]; decide)
    (by rw [hm]; decide)
    (by decide)
    (by decide)
    (by decide)
    (by rw [hm]; decide)
  refine ⟨h.2.1, h.2.2.1, ?_⟩
  rw [h.2.2.2]
  with_unfolding_all rfl

/-- The source's `1/(a+b) * (b*off0 + a*off1)` is the claim's
barycentric blend with weights `b/(a+b)` and `a/(a+b)`. -/
theorem vsmul_blend (a b : ℚ) (x y : Vec3) :
    vsmul (1 / (a + b)) (vadd (vsmul b x) (vsmul a y)) =
      vadd (vsmul (b / (a + b)) x) (vsmul (a / (a + b)) y) := by
  rcases x with ⟨x1, x2, x3⟩
  rcases y with ⟨y1, y2, y3⟩
  simp only [vsmul, vadd, Prod.mk.injEq]
  refine ⟨by ring, by ring, by ring⟩

/-- C5, amended: in `recover_marker_relative`, a frame `f` where the WHOLE
cluster is valid and the target is not gets repaired: its residual is set
to `0` and its position to `recRelFrame` at `f`; every other frame —
including invalid frames where some cluster marker is also invalid — is
left untouched.  The repaired value is origin plus rotation times the
offset; with anchors on both sides (consecutive members `f0 < f < f1` of
the common-valid frame list) the offset is the barycentric blend with
weights `b/(a+b)`, `a/(a+b)`; with anchors on one side only, the single
nearest anchor's offset (first anchor when all lie after `f`, last when
all lie before) is reused unchanged. -/
theorem c5_amended (sq : ℚ → ℚ) (tgt : MkrData) (cl : List MkrData) (f : ℕ)
    (hlp : tgt.pos.length = tgt.res.length)
    (h0 : (validMask tgt).count true ≠ 0)
    (hn : (validMask tgt).count true ≠ tgt.res.length)
    (hany : (andMask (clValidMask tgt.res.length cl)
      (validMask tgt)).any id = true)
    (hconly : (andMask (clValidMask tgt.res.length cl)
      (notMask (validMask tgt))).getD f false = true) :
    (recover_marker_relative sq tgt cl).updated = true ∧
    (recover_marker_relative sq tgt cl).res.getD f 0 = 0 ∧
    (recover_marker_relative sq tgt cl).pos.getD f vzero =
      recRelFrame sq (refPos sq tgt.res.length tgt cl 0)
        (refPos sq tgt.res.length tgt cl 1)
        (refPos sq tgt.res.length tgt cl 2) tgt.pos
        (whereTrue (andMask (clValidMask tgt.res.length cl)
          (validMask tgt))) f ∧
    (∀ g, (andMask (clValidMask tgt.res.length cl)
        (notMask (validMask tgt))).getD g false = false →
      (recover_marker_relative sq tgt cl).pos.getD g vzero =
        tgt.pos.getD g vzero ∧
      (recover_marker_relative sq tgt cl).res.getD g 0 =
        tgt.res.getD g 0) ∧
    (∀ f0 f1,
      f0 ∈ whereTrue (andMask (clValidMask tgt.res.length cl)
        (validMask tgt)) →
      f1 ∈ whereTrue (andMask (clValidMask tgt.res.length cl)
        (validMask tgt)) →
      f0 < f → f < f1 →
      (∀ g ∈ whereTrue (andMask (clValidMask tgt.res.length cl)
        (validMask tgt)), g ≤ f0 ∨ f1 ≤ g) →
      recRelFrame sq (refPos sq tgt.res.length tgt cl 0)
        (refPos sq tgt.res.length tgt cl 1)
        (refPos sq tgt.res.length tgt cl 2) tgt.pos
        (whereTrue (andMask (clValidMask tgt.res.length cl)
          (validMask tgt))) f =
      vadd ((refPos sq tgt.res.length tgt cl 0).getD f vzero)
        (mulVec (buildRot sq (refPos sq tgt.res.length tgt cl 0)
            (refPos sq tgt.res.length tgt cl 1)
            (refPos sq tgt.res.length tgt cl 2) f)
          (vadd
            (vsmul (((f1 : ℚ) - (f : ℚ)) /
                (((f : ℚ) - (f0 : ℚ)) + ((f1 : ℚ) - (f : ℚ))))
              (relOffset sq (refPos sq tgt.res.length tgt cl 0)
                (refPos sq tgt.res.length tgt cl 1)
                (refPos sq tgt.res.length tgt cl 2) tgt.pos f0))
            (vsmul (((f : ℚ) - (f0 : ℚ)) /
                (((f : ℚ) - (f0 : ℚ)) + ((f1 : ℚ) - (f : ℚ))))
              (relOffset sq (refPos sq tgt.res.length tgt cl 0)
                (refPos sq tgt.res.length tgt cl 1)
                (refPos sq tgt.res.length tgt cl 2) tgt.pos f1))))) ∧
    ((∀ g ∈ whereTrue (andMask (clValidMask tgt.res.length cl)
        (validMask tgt)), f < g) →
      recRelFrame sq (refPos sq tgt.res.length tgt cl 0)
        (refPos sq tgt.res.length tgt cl 1)
        (refPos sq tgt.res.length tgt cl 2) tgt.pos
        (whereTrue (andMask (clValidMask tgt.res.length cl)
          (validMask tgt))) f =
      vadd ((refPos sq tgt.res.length tgt cl 0).getD f vzero)
        (mulVec (buildRot sq (refPos sq tgt.res.length tgt cl 0)
            (refPos sq tgt.res.length tgt cl 1)
            (refPos sq tgt.res.length tgt cl 2) f)
          (relOffset sq (refPos sq tgt.res.length tgt cl 0)
            (refPos sq tgt.res.length tgt cl 1)
            (refPos sq tgt.res.length tgt cl 2) tgt.pos
            ((whereTrue (andMask (clValidMask tgt.res.length cl)
              (validMask tgt))).getD 0 0)))) ∧
    ((∀ g ∈ whereTrue (andMask (clValidMask tgt.res.length cl)
        (validMask tgt)), g < f) →
      recRelFrame sq (refPos sq tgt.res.length tgt cl 0)
        (refPos sq tgt.res.length tgt cl 1)
        (refPos sq tgt.res.length tgt cl 2) tgt.pos
        (whereTrue (andMask (clValidMask tgt.res.length cl)
          (validMask tgt))) f =
      vadd ((refPos sq tgt.res.length tgt cl 0).getD f vzero)
        (mulVec (buildRot sq (refPos sq tgt.res.length tgt cl 0)
            (refPos sq tgt.res.length tgt cl 1)
            (refPos sq tgt.res.length tgt cl 2) f)
          (relOffset sq (refPos sq tgt.res.length tgt cl 0)
            (refPos sq tgt.res.length tgt cl 1)
            (refPos sq tgt.res.length tgt cl 2) tgt.pos
            ((whereTrue (andMask (clValidMask tgt.res.length cl)
                (validMask tgt))).getD
              ((whereTrue (andMask (clValidMask tgt.res.length cl)
                (validMask tgt))).length - 1) 0)))) := by
  have hflen : f < (andMask (clValidMask tgt.res.length cl)
      (notMask (validMask tgt))).length := by
    by_contra hge
    rw [List.getD_eq_default _ _ (by omega)] at hconly
    cases hconly
  have hco_le : (andMask (clValidMask tgt.res.length cl)
      (notMask (validMask tgt))).length ≤ tgt.res.length := by
    rw [andMask, List.length_zipWith, length_notMask, length_validMask]
    exact Nat.min_le_right _ _
  have hfres : f < tgt.res.length := by omega
  have hfpos : f < tgt.pos.length := by rw [hlp]; exact hfres
  have hanyco : (andMask (clValidMask tgt.res.length cl)
      (notMask (validMask tgt))).any id = true :=
    any_id_of_getD hflen hconly
  have hanne : whereTrue (andMask (clValidMask tgt.res.length cl)
      (validMask tgt)) ≠ [] := by
    obtain ⟨x, hxm, hxv⟩ := List.any_eq_true.mp hany
    obtain ⟨i, hil, hie⟩ := List.mem_iff_getElem.mp hxm
    refine List.ne_nil_of_mem (mem_whereTrue.mpr ⟨hil, ?_⟩)
    rw [List.getD_eq_getElem _ _ hil, hie]
    exact hxv
  have hrw : recover_marker_relative sq tgt cl =
      ⟨true,
       ((tgt.res.mapIdx (fun g r =>
           if (andMask (clValidMask tgt.res.length cl)
             (notMask (validMask tgt))).getD g false then 0 else r)).map
         resid_valid).count true,
       tgt.pos.mapIdx (fun g p =>
         if (andMask (clValidMask tgt.res.length cl)
           (notMask (validMask tgt))).getD g false then
           recRelFrame sq (refPos sq tgt.res.length tgt cl 0)
             (refPos sq tgt.res.length tgt cl 1)
             (refPos sq tgt.res.length tgt cl 2) tgt.pos
             (whereTrue (andMask (clValidMask tgt.res.length cl)
               (validMask tgt))) g
         else p),
       tgt.res.mapIdx (fun g r =>
         if (andMask (clValidMask tgt.res.length cl)
           (notMask (validMask tgt))).getD g false then 0 else r),
       true⟩ := by
    unfold recover_marker_relative
    dsimp only
    rw [if_neg h0, if_neg hn, if_neg (fun hc => hc hany),
      if_neg (fun hc => hc hanyco)]
  refine ⟨?_, ?_, ?_, ?_, ?_, ?_, ?_⟩
  · rw [hrw]
  · rw [hrw]
    show (tgt.res.mapIdx _).getD f 0 = 0
    rw [getD_mapIdx _ _ _ _ hfres, if_pos hconly]
  · rw [hrw]
    show (tgt.pos.mapIdx _).getD f vzero = _
    rw [getD_mapIdx _ _ _ _ hfpos, if_pos hconly]
  · intro g hg
    have hgneg : ¬ (andMask (clValidMask tgt.res.length cl)
        (notMask (validMask tgt))).getD g false = true := by
      intro hc
      rw [hg] at hc
      cases hc
    rw [hrw]
    constructor
    · show (tgt.pos.mapIdx _).getD g vzero = _
      by_cases hlt : g < tgt.pos.length
      · rw [getD_mapIdx _ _ _ _ hlt, if_neg hgneg]
      · rw [List.getD_eq_default _ _ (by rw [List.length_mapIdx]; omega),
          List.getD_eq_default _ _ (by omega)]
    · show (tgt.res.mapIdx _).getD g 0 = _
      by_cases hlt : g < tgt.res.length
      · rw [getD_mapIdx _ _ _ _ hlt, if_neg hgneg]
      · rw [List.getD_eq_default _ _ (by rw [List.length_mapIdx]; omega),
          List.getD_eq_default _ _ (by omega)]
  · intro f0 f1 h0m h1m hl hr hgap
    obtain ⟨hspos, hslt, he0, he1⟩ :=
      bracket_eq_searchsorted _ (whereTrue_pairwise _) f f0 f1 h0m h1m hl hr
        hgap
    unfold recRelFrame
    dsimp only
    rw [if_neg (by rintro (hc | hc) <;> omega)]
    rw [he0, he1, vsmul_blend]
  · intro hgt
    have hs0 : searchsorted (whereTrue (andMask
        (clValidMask tgt.res.length cl) (validMask tgt))) f = 0 := by
      refine List.countP_eq_zero.mpr (fun g hg => ?_)
      simp only [decide_eq_true_eq]
      have := hgt g hg
      omega
    unfold recRelFrame
    dsimp only
    rw [if_pos (Or.inr hs0),
      argminAbs_all_gt _ (whereTrue_pairwise _) f hgt hanne]
  · intro hlt
    have hsl : searchsorted (whereTrue (andMask
        (clValidMask tgt.res.length cl) (validMask tgt))) f =
        (whereTrue (andMask (clValidMask tgt.res.length cl)
          (validMask tgt))).length := by
      refine List.countP_eq_length.mpr (fun g hg => ?_)
      simp only [decide_eq_true_eq]
      exact hlt g hg
    unfold recRelFrame
    dsimp only
    rw [if_pos (Or.inl hsl.ge),
      argminAbs_all_lt _ (whereTrue_pairwise _) f hlt hanne]

/-- Witness for the amended C5: on the three-frame fixture with a fully
valid three-marker cluster, frame 1 (target invalid, cluster valid) is
repaired with the barycentric blend of the offsets at the two anchors 0
and 2. -/
theorem c5_amended_witness :
    (recover_marker_relative (fun q => q) wTgt3 wClC5).updated = true ∧
    (recover_marker_relative (fun q => q) wTgt3 wClC5).res.getD 1 0 = 0 ∧
    (recover_marker_relative (fun q => q) wTgt3 wClC5).pos.getD 1 vzero =
      vadd ((refPos (fun q => q) wTgt3.res.length wTgt3 wClC5 0).getD 1 vzero)
        (mulVec (buildRot (fun q => q)
            (refPos (fun q => q) wTgt3.res.length wTgt3 wClC5 0)
            (refPos (fun q => q) wTgt3.res.length wTgt3 wClC5 1)
            (refPos (fun q => q) wTgt3.res.length wTgt3 wClC5 2) 1)
          (vadd
            (vsmul ((((2 : ℕ) : ℚ) - ((1 : ℕ) : ℚ)) /
                ((((1 : ℕ) : ℚ) - ((0 : ℕ) : ℚ)) +
                  (((2 : ℕ) : ℚ) - ((1 : ℕ) : ℚ))))
              (relOffset (fun q => q)
                (refPos (fun q => q) wTgt3.res.length wTgt3 wClC5 0)
                (refPos (fun q => q) wTgt3.res.length wTgt3 wClC5 1)
                (refPos (fun q => q) wTgt3.res.length wTgt3 wClC5 2)
                wTgt3.pos 0))
            (vsmul ((((1 : ℕ) : ℚ) - ((0 : ℕ) : ℚ)) /
                ((((1 : ℕ) : ℚ) - ((0 : ℕ) : ℚ)) +
                  (((2 : ℕ) : ℚ) - ((1 : ℕ) : ℚ))))
              (relOffset (fun q => q)
                (refPos (fun q => q) wTgt3.res.length wTgt3 wClC5 0)
                (refPos (fun q => q) wTgt3.res.length wTgt3 wClC5 1)
                (refPos (fun q => q) wTgt3.res.length wTgt3 wClC5 2)
                wTgt3.pos 2)))) := by
  have hm : validMask wTgt3 = [true, false, true] := by
    with_unfolding_all rfl
  have haf : whereTrue (andMask (clValidMask wTgt3.res.length wClC5)
      (validMask wTgt3)) = [0, 2] := by
    with_unfolding_all rfl
  have h := c5_amended (fun q => q) wTgt3 wClC5 1 rfl
    (by rw [hm]; decide) (by rw [hm]; decide)
    (by with_unfolding_all rfl) (by with_unfolding_all rfl)
  refine ⟨h.1, h.2.1, ?_⟩
  rw [h.2.2.1]
  exact h.2.2.2.2.1 0 2 (by rw [haf]; decide) (by rw [haf]; decide)
    (by decide) (by decide)
    (fun g hg => by
      rw [haf] at hg
      have hg2 : g = 0 ∨ g = 2 := by simpa using hg
      rcases hg2 with rfl | rfl
      · exact Or.inl le_rfl
      · exact Or.inr le_rfl)

/-- Stability of `orderedInsert` under the key order, for pair lists with
strictly increasing first components: inserting an element whose index is
below every present index keeps the list pairwise-sorted in the
lexicographic (key, index) order. -/
theorem orderedInsert_pairwise_lex (x : ℕ × ℚ) :
    ∀ (s : List (ℕ × ℚ)),
      s.Pairwise (fun a b => a.2 < b.2 ∨ (a.2 = b.2 ∧ a.1 < b.1)) →
      (∀ y ∈ s, x.1 < y.1) →
      (List.orderedInsert (fun a b => a.2 ≤ b.2) x s).Pairwise
        (fun a b => a.2 < b.2 ∨ (a.2 = b.2 ∧ a.1 < b.1))
  | [], _, _ => List.pairwise_singleton _ _
  | y :: ys, hp, hidx => by
    rw [List.orderedInsert]
    split_ifs with hle
    · refine List.pairwise_cons.mpr ⟨?_, hp⟩
      intro z hz
      have hxz : x.2 ≤ z.2 := by
        rcases List.mem_cons.mp hz with rfl | hzs
        · exact hle
        · rcases (List.pairwise_cons.mp hp).1 z hzs with h | ⟨h, _⟩
          · exact le_trans hle (le_of_lt h)
          · exact le_trans hle (le_of_eq h)
      rcases lt_or_eq_of_le hxz with h | h
      · exact Or.inl h
      · exact Or.inr ⟨h, hidx z hz⟩
    · refine List.pairwise_cons.mpr ⟨?_, orderedInsert_pairwise_lex x ys
        (List.pairwise_cons.mp hp).2
        (fun y2 hy2 => hidx y2 (List.mem_cons_of_mem _ hy2))⟩
      intro z hz
      rcases (List.mem_orderedInsert _).mp hz with rfl | hzs
      · exact Or.inl (lt_of_not_le hle)
      · exact (List.pairwise_cons.mp hp).1 z hzs

/-- A stable sort by key: `insertionSort` on a pair list with strictly
increasing first components is pairwise-sorted lexicographically, i.e.
ties in the key keep the input order. -/
theorem insertionSort_pairwise_lex :
    ∀ (l : List (ℕ × ℚ)), l.Pairwise (fun a b => a.1 < b.1) →
      (l.insertionSort (fun a b => a.2 ≤ b.2)).Pairwise
        (fun a b => a.2 < b.2 ∨ (a.2 = b.2 ∧ a.1 < b.1))
  | [], _ => List.Pairwise.nil
  | x :: xs, hp => by
    rw [List.insertionSort]
    refine orderedInsert_pairwise_lex x _
      (insertionSort_pairwise_lex xs (List.pairwise_cons.mp hp).2) ?_
    intro y hy
    exact (List.pairwise_cons.mp hp).1 y ((List.mem_insertionSort _).mp hy)

/-- C7, amended: the selection key for the three reference markers is the
mean distance over ALL `n` frames (the data are fetched with
`blocked_nan=False`, so invalid frames contribute their stored
coordinates); the sorted list is a permutation of the per-marker pairs,
sorted ascending by key with ties broken stably by input order, and the
`j`-th reference is the `j`-th entry of that sorted list. -/
theorem c7_amended (sq : ℚ → ℚ) (n : ℕ) (tgt : MkrData) (cl : List MkrData) :
    clDistPairs sq n tgt cl = (List.range cl.length).map (fun i =>
      (i, (((List.range n).map (fun f => norm3 sq
        (vsub (((cl.getD i ⟨[], []⟩).pos).getD f vzero)
          (tgt.pos.getD f vzero)))).sum) / (n : ℚ))) ∧
    (clDistSorted sq n tgt cl).Perm (clDistPairs sq n tgt cl) ∧
    (clDistSorted sq n tgt cl).Pairwise
      (fun a b => a.2 < b.2 ∨ (a.2 = b.2 ∧ a.1 < b.1)) ∧
    ∀ j, refIdx sq n tgt cl j =
      ((clDistSorted sq n tgt cl).getD j (0, 0)).1 := by
  refine ⟨rfl, List.perm_insertionSort _ _, ?_, fun j => rfl⟩
  refine insertionSort_pairwise_lex _ ?_
  rw [clDistPairs]
  refine List.pairwise_map.mpr ?_
  exact List.pairwise_lt_range _

end PyC3D
